import Mathlib

/-!
Verification development for the cosmetics formula generator service
(`create_formula.py` and `main.py`).

The development shallowly embeds the string-processing and JSON-recovery
pipeline of `create_formula.py` and the display categorizer and `/generate`
endpoint of `main.py`.  Python strings are modelled as `String` (lists of
unicode scalar characters); `json.loads` is modelled by an executable
fueled parser over `List Char`; exceptions are modelled with `Except` over
an exception-class type; side effects (agent construction, chat initiation,
file writes) are modelled as explicit effect flags.
-/

namespace Cosmetics

/-! ### Character classes and Python string helpers -/

/-- The character `{`. -/
def lbrace : Char := Char.ofNat 123

/-- The character `}`. -/
def rbrace : Char := Char.ofNat 125

/-- JSON whitespace: exactly space, tab, linefeed and carriage return
(the characters skipped by Python's `json` module). -/
def jws (c : Char) : Bool := c = ' ' || c = '\t' || c = '\n' || c = '\r'

/-- Whitespace stripped by Python's `str.strip()` (ASCII range; the rare
non-ASCII unicode space characters are not modelled). -/
def pyWs (c : Char) : Bool :=
  c = ' ' || c = '\t' || c = '\n' || c = '\r' || c = '\x0b' || c = '\x0c'

/-- Word characters for the regex `\b` boundary (`[A-Za-z0-9_]`; ASCII
approximation of `\w`). -/
def wordChar (c : Char) : Bool := c.isAlphanum || c = '_'

/-- Remove the trailing run of characters satisfying `p`. -/
def stripRightBy (p : Char → Bool) (l : List Char) : List Char :=
  (l.reverse.dropWhile p).reverse

/-- Python `str.strip()` on the character list. -/
def pyStrip (l : List Char) : List Char := stripRightBy pyWs (l.dropWhile pyWs)

/-- Strip surrounding JSON whitespace (used by the `json.loads` model). -/
def jsonStripL (l : List Char) : List Char := stripRightBy jws (l.dropWhile jws)

/-- `true` when the list is empty or starts with a non-word character
(the regex `\b` condition looking rightwards). -/
def nonWordStart (l : List Char) : Bool :=
  match l with
  | [] => true
  | d :: _ => !wordChar d

/-- The letters of the sentinel, lowercased. -/
def ciTerm : List Char := ['t', 'e', 'r', 'm', 'i', 'n', 'a', 't', 'e']

/-- If `l` begins with a case-insensitive occurrence of `TERMINATE` whose
right end is at a `\b` boundary, return the rest of the list. -/
def termTail (l : List Char) : Option (List Char) :=
  match l with
  | c1 :: c2 :: c3 :: c4 :: c5 :: c6 :: c7 :: c8 :: c9 :: rest =>
    if ([c1, c2, c3, c4, c5, c6, c7, c8, c9].map Char.toLower = ciTerm) ∧
        nonWordStart rest = true then
      some rest
    else none
  | _ => none

/-- One left-to-right pass of `re.sub(r'\bTERMINATE\b', '', text,
flags=re.IGNORECASE)`: `prevWord` records whether the previous character of
the original text was a word character (the leftward `\b` condition).  The
fuel argument (instantiated with the input length, which always suffices
because every step consumes at least one character) keeps the recursion
structural. -/
def scrubAux : Nat → Bool → List Char → List Char
  | 0, _, l => l
  | _ + 1, _, [] => []
  | f + 1, prevWord, c :: t =>
    match termTail (c :: t) with
    | some rest =>
      if prevWord then c :: scrubAux f (wordChar c) t
      else scrubAux f true rest
    | none => c :: scrubAux f (wordChar c) t

/-- Model of `re.sub(r'\bTERMINATE\b', '', text, flags=re.IGNORECASE)`. -/
def scrub (l : List Char) : List Char := scrubAux l.length false l

/-- Python `str.find` for a single character (`-1` when absent). -/
def pyFind (c : Char) (l : List Char) : Int :=
  match l.findIdx? (fun d => d == c) with
  | some n => (n : Int)
  | none => -1

/-- Python `str.rfind` for a single character (`-1` when absent). -/
def pyRFind (c : Char) (l : List Char) : Int :=
  match l.reverse.findIdx? (fun d => d == c) with
  | some n => (l.length : Int) - 1 - (n : Int)
  | none => -1

/-- Python slice `l[i:j]` for the in-range non-negative indices used by
`_extract_json_like`. -/
def pySliceTo (l : List Char) (i j : Int) : List Char :=
  (l.take j.toNat).drop i.toNat

/-! ### JSON values and a model of Python `json.loads` -/

/-- JSON values as produced by Python's `json.loads`.  Numbers keep their
matched lexeme (the theorems below only ever compare values parsed from
identical text); `nan` and `inf` model the `NaN`/`Infinity`/`-Infinity`
constants accepted by default. -/
inductive J : Type where
  | null : J
  | bool (b : Bool) : J
  | num (lex : String) : J
  | nan : J
  | inf (pos : Bool) : J
  | str (s : String) : J
  | arr (elems : List J) : J
  | obj (members : List (String × J)) : J

/-- Value of a hexadecimal digit. -/
def hexVal (c : Char) : Option Nat :=
  if '0' ≤ c ∧ c ≤ '9' then some (c.toNat - '0'.toNat)
  else if 'a' ≤ c ∧ c ≤ 'f' then some (c.toNat - 'a'.toNat + 10)
  else if 'A' ≤ c ∧ c ≤ 'F' then some (c.toNat - 'A'.toNat + 10)
  else none

/-- The single-character escapes of the strict JSON decoder
(`\" \\ \/ \b \f \n \r \t`). -/
def escChar (e : Char) : Option Char :=
  if e = '"' then some '"'
  else if e = '\\' then some '\\'
  else if e = '/' then some '/'
  else if e = 'b' then some (Char.ofNat 8)
  else if e = 'f' then some (Char.ofNat 12)
  else if e = 'n' then some '\n'
  else if e = 'r' then some '\r'
  else if e = 't' then some '\t'
  else none

/-- Decode the hex digits after a `\u` escape (the `\u` itself already
consumed): four hex digits, with a following `\uXXXX` low surrogate
combined into one code point when the first is a high surrogate.
Isolated surrogates, which `Char` cannot carry, fall back to
`Char.ofNat`, which yields NUL for non-scalar code points. -/
def puesc (l : List Char) : Option (Char × List Char) :=
  match l with
  | h1 :: h2 :: h3 :: h4 :: r3 =>
    match hexVal h1, hexVal h2, hexVal h3, hexVal h4 with
    | some a, some b, some c2, some d =>
      let n := ((a * 16 + b) * 16 + c2) * 16 + d
      if 0xD800 ≤ n ∧ n < 0xDC00 then
        match r3 with
        | e2 :: u2 :: h5 :: h6 :: h7 :: h8 :: r4 =>
          if e2 = '\\' ∧ u2 = 'u' then
            match hexVal h5, hexVal h6, hexVal h7, hexVal h8 with
            | some a2, some b2, some c3, some d2 =>
              let m := ((a2 * 16 + b2) * 16 + c3) * 16 + d2
              if 0xDC00 ≤ m ∧ m < 0xE000 then
                some (Char.ofNat (0x10000 + (n - 0xD800) * 0x400 + (m - 0xDC00)), r4)
              else some (Char.ofNat n, r3)
            | _, _, _, _ => some (Char.ofNat n, r3)
          else some (Char.ofNat n, r3)
        | _ => some (Char.ofNat n, r3)
      else some (Char.ofNat n, r3)
    | _, _, _, _ => none
  | _ => none

/-- Parse the body of a JSON string (the opening quote already consumed):
returns the decoded content and the text after the closing quote.  Escapes
follow Python's strict decoder, which also rejects raw control
characters. -/
def pstr : Nat → List Char → Option (List Char × List Char)
  | 0, _ => none
  | _ + 1, [] => none
  | f + 1, c :: rest =>
    if c = '"' then some ([], rest)
    else if c = '\\' then
      match rest with
      | [] => none
      | e :: r2 =>
        match escChar e with
        | some ch => (pstr f r2).map (fun p => (ch :: p.1, p.2))
        | none =>
          if e = 'u' then
            match puesc r2 with
            | some (ch, r3) => (pstr f r3).map (fun p => (ch :: p.1, p.2))
            | none => none
          else none
    else if c.toNat < 32 then none
    else (pstr f rest).map (fun p => (c :: p.1, p.2))

/-- Integer part of a JSON number: `0` or a nonzero digit followed by
digits (the regex alternative `(0|[1-9]\d*)`). -/
def pnumInt : List Char → Option (List Char × List Char)
  | [] => none
  | c :: rest =>
    if c = '0' then some ([c], rest)
    else if c.isDigit then some (c :: rest.takeWhile Char.isDigit, rest.dropWhile Char.isDigit)
    else none

/-- Optional fraction `(\.\d+)?`; returns the matched token and the rest. -/
def pnumFrac (l : List Char) : List Char × List Char :=
  match l with
  | '.' :: rest =>
    let ds := rest.takeWhile Char.isDigit
    if ds.isEmpty then ([], l) else ('.' :: ds, rest.dropWhile Char.isDigit)
  | _ => ([], l)

/-- Optional exponent `([eE][-+]?\d+)?`; returns the matched token and the rest. -/
def pnumExp (l : List Char) : List Char × List Char :=
  match l with
  | [] => ([], [])
  | [c] => ([], [c])
  | c :: s :: rest =>
    if c = 'e' ∨ c = 'E' then
      if s = '+' ∨ s = '-' then
        let ds := rest.takeWhile Char.isDigit
        if ds.isEmpty then ([], c :: s :: rest)
        else (c :: s :: ds, rest.dropWhile Char.isDigit)
      else
        let ds := (s :: rest).takeWhile Char.isDigit
        if ds.isEmpty then ([], c :: s :: rest)
        else (c :: ds, (s :: rest).dropWhile Char.isDigit)
    else ([], c :: s :: rest)

/-- A JSON number lexeme: `-?(0|[1-9]\d*)(\.\d+)?([eE][-+]?\d+)?`. -/
def pnum (l : List Char) : Option (List Char × List Char) :=
  match l with
  | '-' :: rest =>
    match pnumInt rest with
    | some (ip, r1) =>
      let fr := pnumFrac r1
      let ex := pnumExp fr.2
      some ('-' :: (ip ++ fr.1 ++ ex.1), ex.2)
    | none => none
  | _ =>
    match pnumInt l with
    | some (ip, r1) =>
      let fr := pnumFrac r1
      let ex := pnumExp fr.2
      some (ip ++ fr.1 ++ ex.1, ex.2)
    | none => none

/-- Python `dict` assignment on an insertion-ordered association list:
an existing key keeps its position and gets the new value, a new key is
appended (duplicate object keys are last-wins, as in `json.loads`). -/
def dictInsert {α : Type} : List (String × α) → String → α → List (String × α)
  | [], k, v => [(k, v)]
  | (k1, v1) :: t, k, v =>
    if k1 = k then (k1, v) :: t else (k1, v1) :: dictInsert t k v

mutual

/-- Parse one JSON value starting at the head of the input (no leading
whitespace), as Python's scanner does; returns the value and the
unconsumed rest. -/
def pvalue : Nat → List Char → Option (J × List Char)
  | 0, _ => none
  | _ + 1, [] => none
  | f + 1, c :: rest =>
    if c = '"' then
      match pstr f rest with
      | some (s, r) => some (J.str (String.mk s), r)
      | none => none
    else if c = lbrace then
      match rest.dropWhile jws with
      | [] => none
      | d :: t2 =>
        if d = rbrace then some (J.obj [], t2)
        else
          match pmembers f [] (d :: t2) with
          | some (ms, r) => some (J.obj ms, r)
          | none => none
    else if c = '[' then
      match rest.dropWhile jws with
      | [] => none
      | d :: t2 =>
        if d = ']' then some (J.arr [], t2)
        else
          match pelems f [] (d :: t2) with
          | some (vs, r) => some (J.arr vs, r)
          | none => none
    else if c = 't' then
      match rest with
      | 'r' :: 'u' :: 'e' :: r => some (J.bool true, r)
      | _ => none
    else if c = 'f' then
      match rest with
      | 'a' :: 'l' :: 's' :: 'e' :: r => some (J.bool false, r)
      | _ => none
    else if c = 'n' then
      match rest with
      | 'u' :: 'l' :: 'l' :: r => some (J.null, r)
      | _ => none
    else if c = 'N' then
      match rest with
      | 'a' :: 'N' :: r => some (J.nan, r)
      | _ => none
    else if c = 'I' then
      match rest with
      | 'n' :: 'f' :: 'i' :: 'n' :: 'i' :: 't' :: 'y' :: r => some (J.inf true, r)
      | _ => none
    else
      match pnum (c :: rest) with
      | some (lex, r) => some (J.num (String.mk lex), r)
      | none =>
        if c = '-' then
          match rest with
          | 'I' :: 'n' :: 'f' :: 'i' :: 'n' :: 'i' :: 't' :: 'y' :: r => some (J.inf false, r)
          | _ => none
        else none

/-- Parse the members of a JSON object after the opening brace and
whitespace (first key quote at the head); consumes through the closing
brace. -/
def pmembers : Nat → List (String × J) → List Char → Option (List (String × J) × List Char)
  | 0, _, _ => none
  | _ + 1, _, [] => none
  | f + 1, acc, c :: rest =>
    if c = '"' then
      match pstr f rest with
      | some (k, r1) =>
        match r1.dropWhile jws with
        | ':' :: r3 =>
          match pvalue f (r3.dropWhile jws) with
          | some (v, r4) =>
            match r4.dropWhile jws with
            | ',' :: r6 => pmembers f (dictInsert acc (String.mk k) v) (r6.dropWhile jws)
            | d :: r6 =>
              if d = rbrace then some (dictInsert acc (String.mk k) v, r6) else none
            | [] => none
          | none => none
        | _ => none
      | none => none
    else none

/-- Parse the elements of a JSON array after the opening bracket and
whitespace (first element at the head); consumes through the closing
bracket. -/
def pelems : Nat → List J → List Char → Option (List J × List Char)
  | 0, _, _ => none
  | f + 1, acc, l =>
    match pvalue f l with
    | some (v, r) =>
      match r.dropWhile jws with
      | ',' :: r3 => pelems f (acc ++ [v]) (r3.dropWhile jws)
      | d :: r3 => if d = ']' then some (acc ++ [v], r3) else none
      | [] => none
    | none => none

end

/-- Model of Python `json.loads`: surrounding JSON whitespace is ignored
and the whole document must be one JSON value.  The fuel `2·n + 2` always
suffices: every recursive call of the parser is made at depth one below
its caller after consuming at least one character per two fuel units. -/
def json_loads (s : String) : Option J :=
  let l := jsonStripL s.data
  match pvalue (2 * l.length + 2) l with
  | some (v, []) => some v
  | _ => none

/-! ### Exceptions and `create_formula.py` -/

/-- Exception classes relevant to the embedded code.  `ValueError` and
`TypeError` are distinct, unrelated classes in Python. -/
inductive PyExc : Type where
  | valueError (msg : String)
  | typeError (msg : String)
  | other (msg : String)

/-- `str(exc)` for the modelled exceptions. -/
def excMsg : PyExc → String
  | PyExc.valueError m => m
  | PyExc.typeError m => m
  | PyExc.other m => m

/-- An argument that is either a Python `str` or some non-string value
(the distinction `isinstance(x, str)` checks). -/
inductive PyMsg : Type where
  | str (s : String) : PyMsg
  | notStr : PyMsg

/-- The string-cleaning core of `_extract_json_like`: scrub the sentinel,
strip, then slice from the first `{` to the last `}`, else from the first
`[` to the last `]`, else return the cleaned text. -/
def _extract_json_like_str (text : String) : String :=
  let cleaned := pyStrip (scrub text.data)
  let fc := pyFind lbrace cleaned
  let lc := pyRFind rbrace cleaned
  if fc ≠ -1 ∧ lc ≠ -1 ∧ fc < lc then String.mk (pySliceTo cleaned fc (lc + 1))
  else
    let fb := pyFind '[' cleaned
    let lb := pyRFind ']' cleaned
    if fb ≠ -1 ∧ lb ≠ -1 ∧ fb < lb then String.mk (pySliceTo cleaned fb (lb + 1))
    else String.mk cleaned

/-- `_extract_json_like` including its `isinstance(text, str)` guard,
which raises `ValueError("Input must be a string.")` on non-strings. -/
def _extract_json_like : PyMsg → Except PyExc String
  | PyMsg.notStr => Except.error (PyExc.valueError "Input must be a string.")
  | PyMsg.str s => Except.ok (_extract_json_like_str s)

/-- The error message raised when every parse attempt fails. -/
def parseFailMsg : String :=
  "Failed to parse JSON-like string. Tried raw, extracted JSON-like parts, and single-quote replacement."

/-- `re.sub(r"'", '"', extracted)`: replace every single quote by a double
quote. -/
def quoteSub (l : List Char) : List Char :=
  l.map (fun c => if c = '\x27' then '"' else c)

/-- `_parse_json_string`: strip, try `json.loads`; on failure re-extract
and retry; on failure substitute quotes and retry; finally raise a
`ValueError` with a diagnostic message. -/
def _parse_json_string (jls : String) : Except PyExc J :=
  let candidate := String.mk (pyStrip jls.data)
  match json_loads candidate with
  | some v => Except.ok v
  | none =>
    let extracted := _extract_json_like_str candidate
    match json_loads extracted with
    | some v => Except.ok v
    | none =>
      match json_loads (String.mk (quoteSub extracted.data)) with
      | some v => Except.ok v
      | none => Except.error (PyExc.valueError parseFailMsg)

/-- The dictionary `generate_formula` returns. -/
structure GFResult : Type where
  parsed : Bool
  data : Option J
  raw : String
  error : Option String

/-- Observable side effects of one `generate_formula` call:
whether `_init_agents` ran, whether `initiate_chat` was started, and
whether the save-to-disk write was attempted. -/
structure GFEffects : Type where
  agentsConstructed : Bool
  chatInitiated : Bool
  fileWriteAttempted : Bool

/-- The validation message of `generate_formula`. -/
def gfValidationMsg : String := "`user_message` must be a non-empty string."

/-- `generate_formula(user_message, save_file, ...)`.  The agent exchange
(`initiate_chat` plus reading the final message content) is the external
collaborator; its outcome is the parameter `agentReply`: `Except.ok raw`
for a reply text, `Except.error exc` for a raised exception.  The function
raises (returns `Except.error`) only for the validation failure; every
other failure is converted into a returned result dictionary.  The file
write on `save_file` is recorded as an effect flag (its own failures are
logged and swallowed by the source). -/
def generate_formula (user_message : PyMsg) (save_file : Bool)
    (agentReply : Except PyExc String) : Except PyExc GFResult × GFEffects :=
  match user_message with
  | PyMsg.notStr =>
    (Except.error (PyExc.valueError gfValidationMsg), ⟨false, false, false⟩)
  | PyMsg.str s =>
    if (pyStrip s.data).isEmpty then
      (Except.error (PyExc.valueError gfValidationMsg), ⟨false, false, false⟩)
    else
      match agentReply with
      | Except.error exc =>
        (Except.ok ⟨false, none, "", some (excMsg exc)⟩, ⟨true, true, false⟩)
      | Except.ok raw =>
        match _parse_json_string (_extract_json_like_str raw) with
        | Except.ok v =>
          (Except.ok ⟨true, some v, raw, none⟩, ⟨true, true, save_file⟩)
        | Except.error pe =>
          (Except.ok ⟨false, none, raw, some (excMsg pe)⟩, ⟨true, true, false⟩)

/-! ### `main.py`: the display categorizer -/

/-- A value of the categorized display structure: either a sub-dictionary
of original keys, or the placeholder dictionary
`{"placeholder": msg}` inserted for empty sections. -/
inductive FmtVal (α : Type) : Type where
  | entries (l : List (String × α)) : FmtVal α
  | placeholder (msg : String) : FmtVal α

/-- The `common_fields` table of `format_formula_for_display`, verbatim
(including the duplicated aliases in the source lists). -/
def commonFields : List (String × List String) :=
  [("Product Name",
     ["product_name", "name", "title", "productName", "product name", "product_title"]),
   ("Description",
     ["description", "desc", "summary", "overview", "product_description", "product_desc"]),
   ("Ingredients",
     ["ingredients", "ingredient_list", "components", "formula", "ingredient",
      "ingredient_list", "formulation"]),
   ("Instructions",
     ["instructions", "usage", "how_to_use", "directions", "application",
      "instructions_for_use", "how to use", "usage_instructions"]),
   ("Packaging",
     ["packaging", "container", "bottle", "tube", "packaging_suggestions", "container_type"]),
   ("Safety",
     ["safety", "warnings", "precautions", "regulatory", "safety_information",
      "safety_and_regulatory", "safety_warnings", "regulatory_information"]),
   ("Notes",
     ["notes", "additional_notes", "tips", "recommendations", "additional_information",
      "additional_notes", "extra_notes", "additional_info"])]

/-- The `expected_sections` list of `format_formula_for_display`. -/
def expectedSections : List String :=
  ["Product Name", "Description", "Ingredients", "Instructions", "Packaging", "Safety", "Notes"]

/-- The placeholder text for empty sections. -/
def placeholderMsg : String := "No information available for this section"

/-- Python `str.lower()` (ASCII case folding). -/
def pyLower (s : String) : String := String.mk (s.data.map Char.toLower)

/-- `needle` starts `haystack` (on character lists). -/
def startsWithL : List Char → List Char → Bool
  | [], _ => true
  | _ :: _, [] => false
  | a :: n2, b :: h2 => a == b && startsWithL n2 h2

/-- Python `needle in haystack` for strings: contiguous substring test. -/
def isInfixL (n h : List Char) : Bool :=
  if startsWithL n h then true
  else
    match h with
    | [] => false
    | _ :: h2 => isInfixL n h2

/-- Substring test on `String`s via `pyLower`ed character lists. -/
def strContains (haystack needle : String) : Bool := isInfixL needle.data haystack.data

/-- State of the categorization loop: the `formatted` dictionary under
construction and the `categorized_keys` set (kept as a list). -/
structure CatState (α : Type) : Type where
  fmt : List (String × FmtVal α)
  claimed : List String

/-- Whether the `formatted` dictionary has the given section key. -/
def hasKey {α : Type} (fmt : List (String × FmtVal α)) (k : String) : Bool :=
  fmt.any (fun p => p.1 == k)

/-- `formatted[section].setdefault` plus item assignment:
`formatted[section_name][key] = value` creating the section dictionary
when absent. -/
def sectionAdd {α : Type} :
    List (String × FmtVal α) → String → String → α → List (String × FmtVal α)
  | [], sec, k, v => [(sec, FmtVal.entries [(k, v)])]
  | (s, fv) :: t, sec, k, v =>
    if s = sec then
      match fv with
      | FmtVal.entries l => (s, FmtVal.entries (dictInsert l k v)) :: t
      | FmtVal.placeholder _ => (s, FmtVal.entries [(k, v)]) :: t
    else (s, fv) :: sectionAdd t sec k v

/-- `formula_data[k]` (keys of a Python dict are unique). -/
def lookupVal {α : Type} (data : List (String × α)) (k : String) : Option α :=
  (data.find? (fun p => p.1 == k)).map (fun p => p.2)

/-- One alias iteration of the inner loop of `format_formula_for_display`:
exact case-insensitive match on an unclaimed key first, else the first
unclaimed key containing the alias as a substring. -/
def aliasStep {α : Type} (data : List (String × α)) (sec als : String)
    (st : CatState α) : CatState α :=
  let keys := data.map Prod.fst
  let exactHit := keys.find? (fun k => pyLower k == pyLower als)
  match exactHit with
  | some ak =>
    if st.claimed.contains ak then
      partialStep data sec als st
    else
      match lookupVal data ak with
      | some v => ⟨sectionAdd st.fmt sec ak v, st.claimed ++ [ak]⟩
      | none => st
  | none => partialStep data sec als st
where
  /-- The partial-match fallback: the first not-yet-claimed key whose
  lowercased text contains the lowercased alias. -/
  partialStep (data : List (String × α)) (sec als : String) (st : CatState α) :
      CatState α :=
    match (data.map Prod.fst).find?
        (fun k => !st.claimed.contains k && strContains (pyLower k) (pyLower als)) with
    | some dk =>
      match lookupVal data dk with
      | some v => ⟨sectionAdd st.fmt sec dk v, st.claimed ++ [dk]⟩
      | none => st
    | none => st

/-- The full double loop over `common_fields`. -/
def runSections {α : Type} (data : List (String × α)) (st : CatState α) : CatState α :=
  commonFields.foldl
    (fun st p => p.2.foldl (fun st als => aliasStep data p.1 als st) st) st

/-- The categorization core of `format_formula_for_display` applied to a
(non-empty) dictionary, as an insertion-ordered association list: the
alias loops, then the leftover `Additional Information` bucket, then the
placeholder fill-in for missing canonical sections.  (The source's final
`formatted if formatted else formula_data` fallback is unreachable here
because the fill-in loop guarantees a non-empty result.) -/
def categorize {α : Type} (data : List (String × α)) : List (String × FmtVal α) :=
  let st := runSections data ⟨[], []⟩
  let remaining := data.filter (fun p => !st.claimed.contains p.1)
  let fmt1 :=
    if remaining.isEmpty then st.fmt
    else st.fmt ++ [("Additional Information", FmtVal.entries remaining)]
  expectedSections.foldl
    (fun fmt sec =>
      if hasKey fmt sec then fmt else fmt ++ [(sec, FmtVal.placeholder placeholderMsg)])
    fmt1

/-- Result of `format_formula_for_display`: non-dictionaries and falsy
values are returned unchanged, dictionaries are categorized. -/
inductive FmtResult : Type where
  | unchanged (v : J) : FmtResult
  | categorized (l : List (String × FmtVal J)) : FmtResult

/-- `format_formula_for_display`: `if not formula_data or not
isinstance(formula_data, dict): return formula_data`, else categorize.
(An empty dictionary is falsy in Python, so it is returned unchanged.) -/
def format_formula_for_display (formula_data : J) : FmtResult :=
  match formula_data with
  | J.obj [] => FmtResult.unchanged (J.obj [])
  | J.obj members => FmtResult.categorized (categorize members)
  | v => FmtResult.unchanged v

/-! ### `main.py`: the `/generate` endpoint -/

/-- Python truthiness of a parsed JSON value (`bool(x)`), used by
`if result.get("parsed") and result.get("data")`. -/
def jTruthy : J → Bool
  | J.null => false
  | J.bool b => b
  | J.num lex =>
    (lex.data.takeWhile (fun c => c ≠ 'e' ∧ c ≠ 'E')).any (fun c => c.isDigit && c ≠ '0')
  | J.nan => true
  | J.inf _ => true
  | J.str s => !s.data.isEmpty
  | J.arr l => !l.isEmpty
  | J.obj m => !m.isEmpty

/-- The request body of `POST /generate`. -/
structure GenerateRequest : Type where
  message : String
  save_file : Bool

/-- The error payload `{"message": ..., "trace": ...}`. -/
structure ErrorPayload : Type where
  message : String
  trace : String

/-- The `result` value of a successful endpoint run: the
`generate_formula` dictionary, possibly extended with `formatted_data`. -/
structure GenResult : Type where
  base : GFResult
  formatted_data : Option FmtResult

/-- The uniform response envelope `GenerateResponse`. -/
structure GenerateResponse : Type where
  ok : Bool
  result : Option GenResult
  error : Option ErrorPayload

/-- `traceback.format_exc()` for the modelled exceptions: the trace text
itself is abstracted to a non-empty string derived from the exception. -/
def traceOf (e : PyExc) : String :=
  "Traceback (most recent call last): " ++ excMsg e

/-- The body of the `try` block of the `generate` endpoint: call
`generate_formula` (with `save_file=False`, hard-coded in the source) and
attach `formatted_data` when the result parsed to a truthy value. -/
def generateInner (req : GenerateRequest) (agentReply : Except PyExc String) :
    Except PyExc GenResult × GFEffects :=
  match generate_formula (PyMsg.str req.message) false agentReply with
  | (Except.error e, eff) => (Except.error e, eff)
  | (Except.ok res, eff) =>
    let fd :=
      match res.parsed, res.data with
      | true, some v => if jTruthy v then some (format_formula_for_display v) else none
      | _, _ => none
    (Except.ok ⟨res, fd⟩, eff)

/-- The `generate` endpoint: any exception raised inside the handler is
caught and converted into an `ok=false` envelope with a message and a
trace; otherwise the result is wrapped with `ok=true`. -/
def generate (req : GenerateRequest) (agentReply : Except PyExc String) :
    GenerateResponse × GFEffects :=
  match generateInner req agentReply with
  | (Except.ok r, eff) => (⟨true, some r, none⟩, eff)
  | (Except.error e, eff) => (⟨false, none, some ⟨excMsg e, traceOf e⟩⟩, eff)

/-- The `is_termination_msg` closure of `_init_agents`:
`lambda x: x.get("content", "").strip().endswith("TERMINATE")`, modelled
on the optional `content` entry of the message dictionary. -/
def is_termination_msg (content : Option String) : Bool :=
  List.isSuffixOf "TERMINATE".data (pyStrip (content.getD "").data)

/-! ### Helper facts about the pipeline -/

/-- Classifies an extraction result as a `TypeError`-class failure. -/
def isTypeErrorResult (r : Except PyExc String) : Bool :=
  match r with
  | Except.error (PyExc.typeError _) => true
  | _ => false

/-- All seven canonical sections are present in the given formatting
result. -/
def sevenPresent (r : FmtResult) : Bool :=
  match r with
  | FmtResult.categorized l => expectedSections.all (fun s => hasKey l s)
  | FmtResult.unchanged (J.obj m) => expectedSections.all (fun s => m.any (fun p => p.1 == s))
  | FmtResult.unchanged _ => false

/-- Map a function over the values of an association list (keys fixed). -/
def mapValues {α β : Type} (g : α → β) (data : List (String × α)) : List (String × β) :=
  data.map (fun p => (p.1, g p.2))

/-- Map a function over the values stored in a `FmtVal`. -/
def mapFmtVal {α β : Type} (g : α → β) : FmtVal α → FmtVal β
  | FmtVal.entries l => FmtVal.entries (mapValues g l)
  | FmtVal.placeholder m => FmtVal.placeholder m

/-- Map a function over the values of a categorized structure. -/
def mapFmt {α β : Type} (g : α → β) (fmt : List (String × FmtVal α)) :
    List (String × FmtVal β) :=
  fmt.map (fun p => (p.1, mapFmtVal g p.2))

/-- Map a function over the values of a categorization state. -/
def mapState {α β : Type} (g : α → β) (st : CatState α) : CatState β :=
  ⟨mapFmt g st.fmt, st.claimed⟩

theorem generate_formula_no_file_write (m : PyMsg) (agentReply : Except PyExc String) :
    (generate_formula m false agentReply).2.fileWriteAttempted = false := by
  unfold generate_formula
  cases m with
  | notStr => rfl
  | str s =>
    by_cases hs : (pyStrip s.data).isEmpty = true
    · simp [hs]
    · simp only [hs, if_neg]
      cases agentReply with
      | error e => simp
      | ok raw =>
        cases hp : _parse_json_string (_extract_json_like_str raw) with
        | ok v => simp [hp]
        | error e => simp [hp]

theorem generate_effects_eq (req : GenerateRequest) (agentReply : Except PyExc String) :
    (generate req agentReply).2 = (generate_formula (PyMsg.str req.message) false agentReply).2 := by
  unfold generate generateInner
  cases h : generate_formula (PyMsg.str req.message) false agentReply with
  | mk r eff =>
    cases r with
    | error e => simp
    | ok res => simp

/-! ### Claim C2: the endpoint and save-to-disk -/

/-- Claim C2, counterexample: a `POST /generate` request with
`save_file=true` whose recovery succeeds does not cause any file write to
be attempted — the endpoint hard-codes `save_file=False`. -/
theorem c2_counterexample :
    ((generate ⟨"please make a serum", true⟩ (Except.ok "\x7b\"a\": 1\x7d")).1.ok = true)
    ∧ ((generate ⟨"please make a serum", true⟩
        (Except.ok "\x7b\"a\": 1\x7d")).1.result.map (fun r => r.base.parsed) = some true)
    ∧ ((generate ⟨"please make a serum", true⟩
        (Except.ok "\x7b\"a\": 1\x7d")).2.fileWriteAttempted = false) :=
  ⟨rfl, rfl, rfl⟩

/-- Claim C2, amended: the HTTP `generate` endpoint always invokes
`generate_formula` with `save_file=False`, so no file write is ever
attempted through the endpoint regardless of the request's `save_file`
flag; a direct `generate_formula` call with `save_file=True` whose
recovery succeeds does attempt the write. -/
theorem c2_amended :
    (∀ (req : GenerateRequest) (agentReply : Except PyExc String),
      (generate req agentReply).2.fileWriteAttempted = false)
    ∧ (∀ (s raw : String) (v : J),
      (pyStrip s.data).isEmpty = false →
      _parse_json_string (_extract_json_like_str raw) = Except.ok v →
      (generate_formula (PyMsg.str s) true (Except.ok raw)).2.fileWriteAttempted = true) := by
  constructor
  · intro req agentReply
    rw [generate_effects_eq]
    exact generate_formula_no_file_write _ _
  · intro s raw v hs hp
    unfold generate_formula
    simp [hs, hp]

/-- Witness for `c2_amended` at a concrete successful recovery. -/
theorem c2_witness :
    (generate_formula (PyMsg.str "please make a serum") true
      (Except.ok "\x7b\"a\": 1\x7d")).2.fileWriteAttempted = true :=
  c2_amended.2 "please make a serum" "\x7b\"a\": 1\x7d" (J.obj [("a", J.num "1")])
    rfl rfl

/-! ### Claim C3: object-slice failure and the array fallback -/

/-- Claim C3, counterexample: on `"a {b} [1]"` the object span is found,
its slice `"{b}"` fails to parse, and the array candidate `"[1]"` — which
would parse — is never attempted: the whole recovery fails. -/
theorem c3_counterexample :
    _extract_json_like_str "a \x7bb\x7d [1]" = "\x7bb\x7d"
    ∧ _parse_json_string (_extract_json_like_str "a \x7bb\x7d [1]")
        = Except.error (PyExc.valueError parseFailMsg)
    ∧ json_loads "[1]" = some (J.arr [J.num "1"]) :=
  ⟨rfl, rfl, rfl⟩

/-- Claim C3, amended: the array span (first `[`, last `]`, last after
first) is sliced as the candidate only when the object span (first `{`,
last `}`, last after first) was not found; when the object span is found,
its slice is returned outright and the array candidate is never attempted,
even if the object slice fails to parse. -/
theorem c3_amended :
    (∀ text : String,
      ¬(pyFind lbrace (pyStrip (scrub text.data)) ≠ -1
        ∧ pyRFind rbrace (pyStrip (scrub text.data)) ≠ -1
        ∧ pyFind lbrace (pyStrip (scrub text.data)) < pyRFind rbrace (pyStrip (scrub text.data))) →
      (pyFind '[' (pyStrip (scrub text.data)) ≠ -1
        ∧ pyRFind ']' (pyStrip (scrub text.data)) ≠ -1
        ∧ pyFind '[' (pyStrip (scrub text.data)) < pyRFind ']' (pyStrip (scrub text.data))) →
      _extract_json_like_str text
        = String.mk (pySliceTo (pyStrip (scrub text.data))
            (pyFind '[' (pyStrip (scrub text.data)))
            (pyRFind ']' (pyStrip (scrub text.data)) + 1)))
    ∧ (∀ text : String,
      (pyFind lbrace (pyStrip (scrub text.data)) ≠ -1
        ∧ pyRFind rbrace (pyStrip (scrub text.data)) ≠ -1
        ∧ pyFind lbrace (pyStrip (scrub text.data)) < pyRFind rbrace (pyStrip (scrub text.data))) →
      _extract_json_like_str text
        = String.mk (pySliceTo (pyStrip (scrub text.data))
            (pyFind lbrace (pyStrip (scrub text.data)))
            (pyRFind rbrace (pyStrip (scrub text.data)) + 1))) := by
  constructor
  · intro text h1 h2
    unfold _extract_json_like_str
    simp only [if_neg h1, if_pos h2]
  · intro text h1
    unfold _extract_json_like_str
    simp only [if_pos h1]

/-- Witness for `c3_amended`: the array branch fires on `"x [1] y"` and
the object branch fires on `"a {b} [1]"`. -/
theorem c3_witness :
    _extract_json_like_str "x [1] y" = "[1]"
    ∧ _extract_json_like_str "a \x7bb\x7d [1]" = "\x7bb\x7d" := by
  constructor
  · rw [c3_amended.1 "x [1] y" (by decide) (by decide)]
    rfl
  · rw [c3_amended.2 "a \x7bb\x7d [1]" (by decide)]
    rfl

/-! ### Claim C4: the categorized output's key set -/

/-- Claim C4, counterexample: the empty dictionary is an object input, yet
`format_formula_for_display` returns it unchanged (Python falsiness), so
the seven canonical sections are absent. -/
theorem c4_counterexample :
    format_formula_for_display (J.obj []) = FmtResult.unchanged (J.obj [])
    ∧ sevenPresent (format_formula_for_display (J.obj [])) = false :=
  ⟨rfl, rfl⟩

/-! ### Claim C5: failure handling at the endpoint boundary -/

/-- Claim C5, counterexample: an exception raised by the agent call is a
failure in the chain, but the endpoint response carries `ok=true` with no
top-level error payload (the failure is absorbed inside
`generate_formula`), contradicting the claim that every chain failure
yields `ok=false` with an error payload. -/
theorem c5_counterexample :
    ((generate ⟨"make a cream", false⟩ (Except.error (PyExc.other "boom"))).1.ok = true)
    ∧ ((generate ⟨"make a cream", false⟩ (Except.error (PyExc.other "boom"))).1.error = none)
    ∧ ((generate ⟨"make a cream", false⟩ (Except.error (PyExc.other "boom"))).1.result.map
        (fun r => r.base.error) = some (some "boom")) :=
  ⟨rfl, rfl, rfl⟩

/-- Claim C5, amended: the endpoint is total (no exception escapes): any
exception propagating out of the handler body is converted into
`ok=false` with a message-and-trace payload, and a normal return is
wrapped with `ok=true`; agent-call failures, however, are caught deeper,
inside `generate_formula`, and surface as `ok=true` with
`result.parsed=false` and the message in `result.error`. -/
theorem c5_amended :
    (∀ (req : GenerateRequest) (agentReply : Except PyExc String) (e : PyExc)
        (eff : GFEffects),
      generateInner req agentReply = (Except.error e, eff) →
      generate req agentReply = (⟨false, none, some ⟨excMsg e, traceOf e⟩⟩, eff))
    ∧ (∀ (req : GenerateRequest) (agentReply : Except PyExc String) (r : GenResult)
        (eff : GFEffects),
      generateInner req agentReply = (Except.ok r, eff) →
      generate req agentReply = (⟨true, some r, none⟩, eff))
    ∧ (∀ (req : GenerateRequest) (exc : PyExc),
      (pyStrip req.message.data).isEmpty = false →
      generate req (Except.error exc)
        = (⟨true, some ⟨⟨false, none, "", some (excMsg exc)⟩, none⟩, none⟩,
            ⟨true, true, false⟩)) := by
  refine ⟨?_, ?_, ?_⟩
  · intro req agentReply e eff h
    unfold generate
    rw [h]
  · intro req agentReply r eff h
    unfold generate
    rw [h]
  · intro req exc hs
    unfold generate generateInner generate_formula
    simp [hs]


/-- Witness for `c5_amended`: a validation failure becomes `ok=false`
with payload, a successful run becomes `ok=true`, and an agent failure
becomes `ok=true` with the message inside the result. -/
theorem c5_witness :
    (generate ⟨"", false⟩ (Except.ok "x")
      = (⟨false, none,
          some ⟨gfValidationMsg, traceOf (PyExc.valueError gfValidationMsg)⟩⟩,
          ⟨false, false, false⟩))
    ∧ (generate ⟨"hi", false⟩ (Except.error (PyExc.other "boom"))
      = (⟨true, some ⟨⟨false, none, "", some "boom"⟩, none⟩, none⟩,
          ⟨true, true, false⟩)) :=
  ⟨c5_amended.1 ⟨"", false⟩ (Except.ok "x") (PyExc.valueError gfValidationMsg)
      ⟨false, false, false⟩ rfl,
    c5_amended.2.2 ⟨"hi", false⟩ (PyExc.other "boom") rfl⟩

/-! ### Claim C7: validation happens before any agent activity -/

/-- Claim C7: an empty, whitespace-only or non-string message makes
`generate_formula` raise its validation `ValueError` with the agent pair
never constructed and the chat never initiated, and through the endpoint
this surfaces as a client-visible `ok=false` failure. -/
theorem c7_validation_before_agent :
    (∀ (sf : Bool) (agentReply : Except PyExc String),
      generate_formula PyMsg.notStr sf agentReply
        = (Except.error (PyExc.valueError gfValidationMsg), ⟨false, false, false⟩))
    ∧ (∀ (s : String) (sf : Bool) (agentReply : Except PyExc String),
      (pyStrip s.data).isEmpty = true →
      generate_formula (PyMsg.str s) sf agentReply
        = (Except.error (PyExc.valueError gfValidationMsg), ⟨false, false, false⟩))
    ∧ (∀ (s : String) (b : Bool) (agentReply : Except PyExc String),
      (pyStrip s.data).isEmpty = true →
      generate ⟨s, b⟩ agentReply
        = (⟨false, none,
            some ⟨gfValidationMsg, traceOf (PyExc.valueError gfValidationMsg)⟩⟩,
            ⟨false, false, false⟩)) := by
  refine ⟨?_, ?_, ?_⟩
  · intro sf agentReply
    rfl
  · intro s sf agentReply hs
    unfold generate_formula
    simp [hs]
  · intro s b agentReply hs
    unfold generate generateInner generate_formula
    simp [hs, excMsg]

/-- Witness for `c7_validation_before_agent` on a whitespace-only
message. -/
theorem c7_witness :
    generate_formula (PyMsg.str "   ") false (Except.ok "reply")
      = (Except.error (PyExc.valueError gfValidationMsg), ⟨false, false, false⟩)
    ∧ generate ⟨"  ", true⟩ (Except.ok "reply")
      = (⟨false, none,
          some ⟨gfValidationMsg, traceOf (PyExc.valueError gfValidationMsg)⟩⟩,
          ⟨false, false, false⟩) :=
  ⟨c7_validation_before_agent.2.1 "   " false (Except.ok "reply") rfl,
    c7_validation_before_agent.2.2 "  " true (Except.ok "reply") rfl⟩

/-! ### Claim C8: unrecoverable input -/

/-- Claim C8: when the raw parse, the extracted-span parse and the
quote-substituted parse of the agent text all fail, `generate_formula`
returns `parsed=false` with the raw text preserved verbatim and the
diagnostic message naming all three attempts. -/
theorem c8_unrecoverable_failure (s raw : String)
    (hs : (pyStrip s.data).isEmpty = false)
    (h1 : json_loads (String.mk (pyStrip (_extract_json_like_str raw).data)) = none)
    (h2 : json_loads (_extract_json_like_str
        (String.mk (pyStrip (_extract_json_like_str raw).data))) = none)
    (h3 : json_loads (String.mk (quoteSub (_extract_json_like_str
        (String.mk (pyStrip (_extract_json_like_str raw).data))).data)) = none) :
    generate_formula (PyMsg.str s) false (Except.ok raw)
      = (Except.ok ⟨false, none, raw, some parseFailMsg⟩, ⟨true, true, false⟩) := by
  have hp : _parse_json_string (_extract_json_like_str raw)
      = Except.error (PyExc.valueError parseFailMsg) := by
    simp only [_parse_json_string, h1, h2, h3]
  unfold generate_formula
  simp [hs, hp, excMsg]

/-- Witness for `c8_unrecoverable_failure` on `"just some text"`. -/
theorem c8_witness :
    generate_formula (PyMsg.str "light cream") false (Except.ok "just some text")
      = (Except.ok ⟨false, none, "just some text", some parseFailMsg⟩,
          ⟨true, true, false⟩) :=
  c8_unrecoverable_failure "light cream" "just some text" rfl rfl rfl rfl

/-! ### Claim C9: non-string input to the recovery routine -/

/-- Claim C9, counterexample: on a non-string input `_extract_json_like`
raises `ValueError("Input must be a string.")`, which is not a
`TypeError`-class error. -/
theorem c9_counterexample :
    _extract_json_like PyMsg.notStr
        = Except.error (PyExc.valueError "Input must be a string.")
    ∧ isTypeErrorResult (_extract_json_like PyMsg.notStr) = false :=
  ⟨rfl, rfl⟩

/-- Claim C9, amended: for non-string input the recovery routine fails
with a `ValueError` (not a `TypeError`) rather than proceeding or
returning a value. -/
theorem c9_amended :
    _extract_json_like PyMsg.notStr
      = Except.error (PyExc.valueError "Input must be a string.") :=
  rfl

/-! ### Claim C10: the termination predicate -/

/-- Claim C10: the driving role's termination predicate is true exactly
when the message's `content` (defaulting to `""` when absent), stripped,
ends with the case-sensitive literal `TERMINATE`; a reply ending in
lowercase `terminate` does not end the exchange, even though the recovery
step removes the sentinel case-insensitively. -/
theorem c10_termination_predicate :
    (∀ s : String,
      is_termination_msg (some s) = List.isSuffixOf "TERMINATE".data (pyStrip s.data))
    ∧ is_termination_msg none = false
    ∧ is_termination_msg (some "All done TERMINATE") = true
    ∧ is_termination_msg (some "All done terminate") = false
    ∧ _extract_json_like_str "All done terminate" = "All done" :=
  ⟨fun _ => rfl, rfl, rfl, rfl, rfl⟩

/-! ### Naturality of the categorizer in the stored values

The categorizer inspects only the keys of its input; these lemmas make
that precise and let concrete computations with placeholder tags be
transported to arbitrary stored values. -/

theorem mapValues_fst {α β : Type} (g : α → β) (data : List (String × α)) :
    (mapValues g data).map Prod.fst = data.map Prod.fst := by
  simp [mapValues]

theorem dictInsert_map {α β : Type} (g : α → β) (l : List (String × α)) (k : String) (v : α) :
    dictInsert (mapValues g l) k (g v) = mapValues g (dictInsert l k v) := by
  induction l with
  | nil => rfl
  | cons p t ih =>
    by_cases h : p.1 = k
    · simp [mapValues, dictInsert, h]
    · simp [mapValues, dictInsert, h] at ih ⊢
      exact ih

theorem lookupVal_map {α β : Type} (g : α → β) (data : List (String × α)) (k : String) :
    lookupVal (mapValues g data) k = (lookupVal data k).map g := by
  induction data with
  | nil => rfl
  | cons p t ih =>
    by_cases h : (p.1 == k) = true
    · simp [lookupVal, mapValues, List.find?_cons, h]
    · simp only [lookupVal, mapValues, List.map_cons, List.find?_cons, h] at ih ⊢
      simp only [Bool.false_eq_true, if_false] at *
      exact ih

theorem sectionAdd_map {α β : Type} (g : α → β) (fmt : List (String × FmtVal α))
    (sec k : String) (v : α) :
    sectionAdd (mapFmt g fmt) sec k (g v) = mapFmt g (sectionAdd fmt sec k v) := by
  induction fmt with
  | nil => rfl
  | cons p t ih =>
    by_cases h : p.1 = sec
    · cases hv : p.2 with
      | entries l => simp [mapFmt, sectionAdd, mapFmtVal, h, hv, dictInsert_map]
      | placeholder m => simp [mapFmt, sectionAdd, mapFmtVal, h, hv, mapValues]
    · simp [mapFmt, sectionAdd, mapFmtVal, h] at ih ⊢
      exact ih

theorem partialStep_map {α β : Type} (g : α → β) (data : List (String × α))
    (sec als : String) (st : CatState α) :
    aliasStep.partialStep (mapValues g data) sec als (mapState g st)
      = mapState g (aliasStep.partialStep data sec als st) := by
  unfold aliasStep.partialStep
  simp only [mapState, mapValues_fst]
  cases hf : (data.map Prod.fst).find?
      (fun k => !st.claimed.contains k && strContains (pyLower k) (pyLower als)) with
  | none => simp only [hf]
  | some dk =>
    simp only [hf, lookupVal_map]
    cases hv : lookupVal data dk with
    | none => simp
    | some v =>
      have hadd : sectionAdd (mapFmt g st.fmt) sec dk (g v)
          = mapFmt g (sectionAdd st.fmt sec dk v) := sectionAdd_map g st.fmt sec dk v
      simp [hadd]

theorem aliasStep_map {α β : Type} (g : α → β) (data : List (String × α))
    (sec als : String) (st : CatState α) :
    aliasStep (mapValues g data) sec als (mapState g st)
      = mapState g (aliasStep data sec als st) := by
  unfold aliasStep
  simp only [mapState, mapValues_fst]
  cases he : (data.map Prod.fst).find? (fun k => pyLower k == pyLower als) with
  | none =>
    simp only [he]
    have := partialStep_map g data sec als st
    simp only [mapState] at this
    exact this
  | some ak =>
    simp only [he]
    by_cases hc : st.claimed.contains ak = true
    · simp only [hc, if_true]
      have := partialStep_map g data sec als st
      simp only [mapState] at this
      exact this
    · simp only [hc, Bool.false_eq_true, if_false, lookupVal_map]
      cases hv : lookupVal data ak with
      | none => simp
      | some v =>
        have hadd : sectionAdd (mapFmt g st.fmt) sec ak (g v)
            = mapFmt g (sectionAdd st.fmt sec ak v) := sectionAdd_map g st.fmt sec ak v
        simp [hadd]

theorem aliasesFold_map {α β : Type} (g : α → β) (data : List (String × α))
    (sec : String) (als : List String) (st : CatState α) :
    als.foldl (fun st a => aliasStep (mapValues g data) sec a st) (mapState g st)
      = mapState g (als.foldl (fun st a => aliasStep data sec a st) st) := by
  induction als generalizing st with
  | nil => rfl
  | cons a t ih =>
    simp only [List.foldl_cons]
    rw [aliasStep_map, ih]

theorem sectionsFold_map {α β : Type} (g : α → β) (data : List (String × α))
    (fields : List (String × List String)) (st : CatState α) :
    fields.foldl
        (fun st p => p.2.foldl (fun st a => aliasStep (mapValues g data) p.1 a st) st)
        (mapState g st)
      = mapState g (fields.foldl
          (fun st p => p.2.foldl (fun st a => aliasStep data p.1 a st) st) st) := by
  induction fields generalizing st with
  | nil => rfl
  | cons p t ih =>
    simp only [List.foldl_cons]
    rw [aliasesFold_map, ih]

theorem runSections_map {α β : Type} (g : α → β) (data : List (String × α))
    (st : CatState α) :
    runSections (mapValues g data) (mapState g st) = mapState g (runSections data st) := by
  unfold runSections
  exact sectionsFold_map g data commonFields st

theorem hasKey_mapFmt {α β : Type} (g : α → β) (fmt : List (String × FmtVal α))
    (k : String) :
    hasKey (mapFmt g fmt) k = hasKey fmt k := by
  induction fmt with
  | nil => rfl
  | cons p t ih =>
    simp only [hasKey, mapFmt, List.map_cons, List.any_cons] at ih ⊢
    rw [ih]

theorem ensureFold_map {α β : Type} (g : α → β) (secs : List String)
    (fmt : List (String × FmtVal α)) :
    secs.foldl
        (fun fmt sec =>
          if hasKey fmt sec then fmt else fmt ++ [(sec, FmtVal.placeholder placeholderMsg)])
        (mapFmt g fmt)
      = mapFmt g (secs.foldl
          (fun fmt sec =>
            if hasKey fmt sec then fmt else fmt ++ [(sec, FmtVal.placeholder placeholderMsg)])
          fmt) := by
  induction secs generalizing fmt with
  | nil => rfl
  | cons sec t ih =>
    simp only [List.foldl_cons, hasKey_mapFmt]
    by_cases h : hasKey fmt sec = true
    · rw [if_pos h, if_pos h, ih]
    · rw [if_neg h, if_neg h]
      have : mapFmt g fmt ++ [(sec, FmtVal.placeholder placeholderMsg)]
          = mapFmt g (fmt ++ [(sec, FmtVal.placeholder placeholderMsg)]) := by
        simp [mapFmt, mapFmtVal]
      rw [this, ih]

theorem filter_mapValues {α β : Type} (g : α → β) (data : List (String × α))
    (claimed : List String) :
    (mapValues g data).filter (fun p => !claimed.contains p.1)
      = mapValues g (data.filter (fun p => !claimed.contains p.1)) := by
  induction data with
  | nil => rfl
  | cons p t ih =>
    simp only [mapValues, List.map_cons, List.filter_cons] at ih ⊢
    by_cases h : (!claimed.contains p.1) = true
    · simp only [h, if_true, List.map_cons]
      rw [ih]
    · simp only [h, Bool.false_eq_true, if_false]
      exact ih

theorem categorize_map {α β : Type} (g : α → β) (data : List (String × α)) :
    categorize (mapValues g data) = mapFmt g (categorize data) := by
  unfold categorize
  have h0 : (⟨[], []⟩ : CatState β) = mapState g (⟨[], []⟩ : CatState α) := rfl
  rw [h0, runSections_map]
  simp only [mapState]
  rw [filter_mapValues]
  have hempty : (mapValues g (data.filter
      (fun p => !(runSections data ⟨[], []⟩).claimed.contains p.1))).isEmpty
      = (data.filter (fun p => !(runSections data ⟨[], []⟩).claimed.contains p.1)).isEmpty := by
    cases data.filter (fun p => !(runSections data ⟨[], []⟩).claimed.contains p.1) with
    | nil => rfl
    | cons p t => rfl
  rw [hempty]
  by_cases h : (data.filter
      (fun p => !(runSections data ⟨[], []⟩).claimed.contains p.1)).isEmpty = true
  · rw [if_pos h, if_pos h]
    exact ensureFold_map g expectedSections (runSections data ⟨[], []⟩).fmt
  · rw [if_neg h, if_neg h]
    have hfmt : mapFmt g (runSections data ⟨[], []⟩).fmt
        ++ [("Additional Information",
             FmtVal.entries (mapValues g (data.filter
               (fun p => !(runSections data ⟨[], []⟩).claimed.contains p.1))))]
        = mapFmt g ((runSections data ⟨[], []⟩).fmt
            ++ [("Additional Information",
                 FmtVal.entries (data.filter
                   (fun p => !(runSections data ⟨[], []⟩).claimed.contains p.1)))]) := by
      simp [mapFmt, mapFmtVal]
    rw [hfmt]
    exact ensureFold_map g expectedSections _

/-! ### Claim C6: categorization round-trip on already-categorized keys -/

set_option maxRecDepth 40000 in
/-- Claim C6: re-running categorization on an output that already has the
seven canonical keys (with or without an `Additional Information` bucket)
loses no data — every key-value entry of the input reappears exactly once
in the new output with its value unchanged: each canonical key is claimed
by its own section and the `Additional Information` key moves unclaimed
into the new `Additional Information` bucket, so the total value count is
conserved (here no placeholder insertion occurs because no section is
empty; in the seven-key variant every section is matched and no bucket is
created). -/
theorem c6_roundtrip {α : Type} (v1 v2 v3 v4 v5 v6 v7 v8 : α) :
    categorize [("Product Name", v1), ("Description", v2), ("Ingredients", v3),
        ("Instructions", v4), ("Packaging", v5), ("Safety", v6), ("Notes", v7),
        ("Additional Information", v8)]
      = [("Product Name", FmtVal.entries [("Product Name", v1)]),
         ("Description", FmtVal.entries [("Description", v2)]),
         ("Ingredients", FmtVal.entries [("Ingredients", v3)]),
         ("Instructions", FmtVal.entries [("Instructions", v4)]),
         ("Packaging", FmtVal.entries [("Packaging", v5)]),
         ("Safety", FmtVal.entries [("Safety", v6)]),
         ("Notes", FmtVal.entries [("Notes", v7)]),
         ("Additional Information", FmtVal.entries [("Additional Information", v8)])]
    ∧ categorize [("Product Name", v1), ("Description", v2), ("Ingredients", v3),
        ("Instructions", v4), ("Packaging", v5), ("Safety", v6), ("Notes", v7)]
      = [("Product Name", FmtVal.entries [("Product Name", v1)]),
         ("Description", FmtVal.entries [("Description", v2)]),
         ("Ingredients", FmtVal.entries [("Ingredients", v3)]),
         ("Instructions", FmtVal.entries [("Instructions", v4)]),
         ("Packaging", FmtVal.entries [("Packaging", v5)]),
         ("Safety", FmtVal.entries [("Safety", v6)]),
         ("Notes", FmtVal.entries [("Notes", v7)])] := by
  constructor
  · have h8 : categorize [("Product Name", (0 : Nat)), ("Description", 1),
        ("Ingredients", 2), ("Instructions", 3), ("Packaging", 4), ("Safety", 5),
        ("Notes", 6), ("Additional Information", 7)]
        = [("Product Name", FmtVal.entries [("Product Name", 0)]),
           ("Description", FmtVal.entries [("Description", 1)]),
           ("Ingredients", FmtVal.entries [("Ingredients", 2)]),
           ("Instructions", FmtVal.entries [("Instructions", 3)]),
           ("Packaging", FmtVal.entries [("Packaging", 4)]),
           ("Safety", FmtVal.entries [("Safety", 5)]),
           ("Notes", FmtVal.entries [("Notes", 6)]),
           ("Additional Information", FmtVal.entries [("Additional Information", 7)])] := rfl
    have hmap : mapValues (fun n => [v1, v2, v3, v4, v5, v6, v7, v8].getD n v1)
        [("Product Name", (0 : Nat)), ("Description", 1), ("Ingredients", 2),
         ("Instructions", 3), ("Packaging", 4), ("Safety", 5), ("Notes", 6),
         ("Additional Information", 7)]
        = [("Product Name", v1), ("Description", v2), ("Ingredients", v3),
           ("Instructions", v4), ("Packaging", v5), ("Safety", v6), ("Notes", v7),
           ("Additional Information", v8)] := rfl
    rw [← hmap, categorize_map, h8]
    rfl
  · have h7 : categorize [("Product Name", (0 : Nat)), ("Description", 1),
        ("Ingredients", 2), ("Instructions", 3), ("Packaging", 4), ("Safety", 5),
        ("Notes", 6)]
        = [("Product Name", FmtVal.entries [("Product Name", 0)]),
           ("Description", FmtVal.entries [("Description", 1)]),
           ("Ingredients", FmtVal.entries [("Ingredients", 2)]),
           ("Instructions", FmtVal.entries [("Instructions", 3)]),
           ("Packaging", FmtVal.entries [("Packaging", 4)]),
           ("Safety", FmtVal.entries [("Safety", 5)]),
           ("Notes", FmtVal.entries [("Notes", 6)])] := rfl
    have hmap : mapValues (fun n => [v1, v2, v3, v4, v5, v6, v7].getD n v1)
        [("Product Name", (0 : Nat)), ("Description", 1), ("Ingredients", 2),
         ("Instructions", 3), ("Packaging", 4), ("Safety", 5), ("Notes", 6)]
        = [("Product Name", v1), ("Description", v2), ("Ingredients", v3),
           ("Instructions", v4), ("Packaging", v5), ("Safety", v6), ("Notes", v7)] := rfl
    rw [← hmap, categorize_map, h7]
    rfl

/-! ### Key-set facts about the categorizer (for claim C4) -/

theorem hasKey_eq_mem {α : Type} (fmt : List (String × FmtVal α)) (k : String) :
    hasKey fmt k = true ↔ k ∈ fmt.map Prod.fst := by
  simp only [hasKey, List.any_eq_true, List.mem_map, beq_iff_eq]

theorem sectionAdd_fst {α : Type} (fmt : List (String × FmtVal α)) (sec k : String)
    (v : α) :
    (sectionAdd fmt sec k v).map Prod.fst
      = if sec ∈ fmt.map Prod.fst then fmt.map Prod.fst
        else fmt.map Prod.fst ++ [sec] := by
  induction fmt with
  | nil => simp [sectionAdd]
  | cons p t ih =>
    cases p with
    | mk s fv =>
      by_cases h : s = sec
      · cases fv with
        | entries l => simp [sectionAdd, h]
        | placeholder m => simp [sectionAdd, h]
      · have hne : ¬ sec = s := fun hc => h hc.symm
        cases fv with
        | entries l =>
          simp only [sectionAdd, h, if_false, List.map_cons, List.mem_cons, ih]
          by_cases hmem : sec ∈ t.map Prod.fst
          · simp [hmem, hne]
          · simp [hmem, hne]
        | placeholder m =>
          simp only [sectionAdd, h, if_false, List.map_cons, List.mem_cons, ih]
          by_cases hmem : sec ∈ t.map Prod.fst
          · simp [hmem, hne]
          · simp [hmem, hne]

theorem mem_sectionAdd_fst {α : Type} {fmt : List (String × FmtVal α)} {sec k x : String}
    {v : α} (h : x ∈ (sectionAdd fmt sec k v).map Prod.fst) :
    x ∈ fmt.map Prod.fst ∨ x = sec := by
  rw [sectionAdd_fst] at h
  by_cases hmem : sec ∈ fmt.map Prod.fst
  · rw [if_pos hmem] at h
    exact Or.inl h
  · rw [if_neg hmem] at h
    rcases List.mem_append.mp h with h1 | h1
    · exact Or.inl h1
    · exact Or.inr (List.mem_singleton.mp h1)

theorem mem_partialStep_fst {α : Type} {data : List (String × α)} {sec als x : String}
    {st : CatState α}
    (h : x ∈ (aliasStep.partialStep data sec als st).fmt.map Prod.fst) :
    x ∈ st.fmt.map Prod.fst ∨ x = sec := by
  unfold aliasStep.partialStep at h
  cases hf : (data.map Prod.fst).find?
      (fun k => !st.claimed.contains k && strContains (pyLower k) (pyLower als)) with
  | none =>
    simp only [hf] at h
    exact Or.inl h
  | some dk =>
    simp only [hf] at h
    cases hv : lookupVal data dk with
    | none =>
      simp only [hv] at h
      exact Or.inl h
    | some v =>
      simp only [hv] at h
      exact mem_sectionAdd_fst h

theorem mem_aliasStep_fst {α : Type} {data : List (String × α)} {sec als x : String}
    {st : CatState α} (h : x ∈ (aliasStep data sec als st).fmt.map Prod.fst) :
    x ∈ st.fmt.map Prod.fst ∨ x = sec := by
  unfold aliasStep at h
  cases he : (data.map Prod.fst).find? (fun k => pyLower k == pyLower als) with
  | none =>
    simp only [he] at h
    exact mem_partialStep_fst h
  | some ak =>
    simp only [he] at h
    by_cases hc : st.claimed.contains ak = true
    · rw [if_pos hc] at h
      exact mem_partialStep_fst h
    · rw [if_neg hc] at h
      cases hv : lookupVal data ak with
      | none =>
        simp only [hv] at h
        exact Or.inl h
      | some v =>
        simp only [hv] at h
        exact mem_sectionAdd_fst h

theorem mem_aliasesFold_fst {α : Type} {data : List (String × α)} {sec x : String}
    (als : List String) (st : CatState α)
    (h : x ∈ (als.foldl (fun st a => aliasStep data sec a st) st).fmt.map Prod.fst) :
    x ∈ st.fmt.map Prod.fst ∨ x = sec := by
  induction als generalizing st with
  | nil => exact Or.inl h
  | cons a t ih =>
    simp only [List.foldl_cons] at h
    rcases ih (aliasStep data sec a st) h with h1 | h1
    · exact mem_aliasStep_fst h1
    · exact Or.inr h1

theorem mem_sectionsFold_fst {α : Type} {data : List (String × α)} {x : String}
    (fields : List (String × List String)) (st : CatState α)
    (h : x ∈ (fields.foldl
        (fun st p => p.2.foldl (fun st a => aliasStep data p.1 a st) st)
        st).fmt.map Prod.fst) :
    x ∈ st.fmt.map Prod.fst ∨ x ∈ fields.map Prod.fst := by
  induction fields generalizing st with
  | nil => exact Or.inl h
  | cons p t ih =>
    simp only [List.foldl_cons] at h
    rcases ih _ h with h1 | h1
    · rcases mem_aliasesFold_fst p.2 st h1 with h2 | h2
      · exact Or.inl h2
      · exact Or.inr (by simp [h2])
    · exact Or.inr (by simp [h1])

theorem mem_runSections_fst {α : Type} {data : List (String × α)} {x : String}
    (h : x ∈ (runSections data ⟨[], []⟩).fmt.map Prod.fst) :
    x ∈ expectedSections := by
  unfold runSections at h
  rcases mem_sectionsFold_fst commonFields ⟨[], []⟩ h with h1 | h1
  · simp at h1
  · have : commonFields.map Prod.fst = expectedSections := rfl
    rw [this] at h1
    exact h1

theorem ensureStep_fst {α : Type} (fmt : List (String × FmtVal α)) (sec : String) :
    ((if hasKey fmt sec then fmt
      else fmt ++ [(sec, FmtVal.placeholder placeholderMsg)]).map Prod.fst)
      = if hasKey fmt sec then fmt.map Prod.fst else fmt.map Prod.fst ++ [sec] := by
  by_cases h : hasKey fmt sec = true
  · simp [h]
  · simp [h]

theorem ensureFold_mono {α : Type} (secs : List String)
    (fmt : List (String × FmtVal α)) {k : String} (h : k ∈ fmt.map Prod.fst) :
    k ∈ (secs.foldl
        (fun fmt sec =>
          if hasKey fmt sec then fmt else fmt ++ [(sec, FmtVal.placeholder placeholderMsg)])
        fmt).map Prod.fst := by
  induction secs generalizing fmt with
  | nil => exact h
  | cons a t ih =>
    simp only [List.foldl_cons]
    apply ih
    rw [ensureStep_fst]
    by_cases ha : hasKey fmt a = true
    · rw [if_pos ha]
      exact h
    · rw [if_neg ha]
      exact List.mem_append.mpr (Or.inl h)

theorem ensureFold_mem {α : Type} (secs : List String)
    (fmt : List (String × FmtVal α)) {sec : String} (h : sec ∈ secs) :
    sec ∈ (secs.foldl
        (fun fmt sec =>
          if hasKey fmt sec then fmt else fmt ++ [(sec, FmtVal.placeholder placeholderMsg)])
        fmt).map Prod.fst := by
  induction secs generalizing fmt with
  | nil => cases h
  | cons a t ih =>
    simp only [List.foldl_cons]
    rcases List.mem_cons.mp h with h1 | h1
    · subst h1
      apply ensureFold_mono
      rw [ensureStep_fst]
      by_cases ha : hasKey fmt sec = true
      · rw [if_pos ha]
        exact (hasKey_eq_mem fmt sec).mp ha
      · rw [if_neg ha]
        exact List.mem_append.mpr (Or.inr (List.mem_singleton.mpr rfl))
    · exact ih _ h1

theorem ensureFold_subset {α : Type} (secs : List String)
    (fmt : List (String × FmtVal α)) {x : String}
    (h : x ∈ (secs.foldl
        (fun fmt sec =>
          if hasKey fmt sec then fmt else fmt ++ [(sec, FmtVal.placeholder placeholderMsg)])
        fmt).map Prod.fst) :
    x ∈ fmt.map Prod.fst ∨ x ∈ secs := by
  induction secs generalizing fmt with
  | nil => exact Or.inl h
  | cons a t ih =>
    simp only [List.foldl_cons] at h
    rcases ih _ h with h1 | h1
    · rw [ensureStep_fst] at h1
      by_cases ha : hasKey fmt a = true
      · rw [if_pos ha] at h1
        exact Or.inl h1
      · rw [if_neg ha] at h1
        rcases List.mem_append.mp h1 with h2 | h2
        · exact Or.inl h2
        · exact Or.inr (by simp [List.mem_singleton.mp h2])
    · exact Or.inr (List.mem_cons.mpr (Or.inr h1))

theorem ensureFold_count {α : Type} (secs : List String)
    (fmt : List (String × FmtVal α)) {ai : String} (h : ai ∉ secs) :
    ((secs.foldl
        (fun fmt sec =>
          if hasKey fmt sec then fmt else fmt ++ [(sec, FmtVal.placeholder placeholderMsg)])
        fmt).map Prod.fst).count ai
      = (fmt.map Prod.fst).count ai := by
  induction secs generalizing fmt with
  | nil => rfl
  | cons a t ih =>
    simp only [List.foldl_cons]
    have hat : ai ∉ t := fun hc => h (List.mem_cons.mpr (Or.inr hc))
    have hane : a ≠ ai := fun hc => h (List.mem_cons.mpr (Or.inl hc.symm))
    rw [ih _ hat, ensureStep_fst]
    by_cases ha : hasKey fmt a = true
    · rw [if_pos ha]
    · rw [if_neg ha, List.count_append]
      simp [List.count_singleton, hane]

/-- Claim C4, amended: for every non-empty dictionary input,
`format_formula_for_display` categorizes it, and the result contains every
one of the seven canonical section keys, contains at most one
`Additional Information` key, and contains no key outside those eight.
(The empty dictionary, being falsy, is returned unchanged — the
counterexample above.) -/
theorem c4_amended (m : List (String × J)) (hm : m ≠ []) :
    format_formula_for_display (J.obj m) = FmtResult.categorized (categorize m)
    ∧ (∀ sec, sec ∈ expectedSections → sec ∈ (categorize m).map Prod.fst)
    ∧ (∀ k, k ∈ (categorize m).map Prod.fst →
        k ∈ expectedSections ∨ k = "Additional Information")
    ∧ ((categorize m).map Prod.fst).count "Additional Information" ≤ 1 := by
  have hai : "Additional Information" ∉ expectedSections := by decide
  refine ⟨?_, ?_, ?_, ?_⟩
  · cases m with
    | nil => exact absurd rfl hm
    | cons p t => rfl
  · intro sec hsec
    unfold categorize
    exact ensureFold_mem expectedSections _ hsec
  · intro k hk
    unfold categorize at hk
    rcases ensureFold_subset expectedSections _ hk with h1 | h1
    · by_cases hrem : (m.filter
          (fun p => !(runSections m ⟨[], []⟩).claimed.contains p.1)).isEmpty = true
      · rw [if_pos hrem] at h1
        exact Or.inl (mem_runSections_fst h1)
      · rw [if_neg hrem] at h1
        rw [List.map_append] at h1
        rcases List.mem_append.mp h1 with h2 | h2
        · exact Or.inl (mem_runSections_fst h2)
        · exact Or.inr (by simpa using h2)
    · exact Or.inl h1
  · unfold categorize
    rw [ensureFold_count expectedSections _ hai]
    have hzero : ((runSections m ⟨[], []⟩).fmt.map Prod.fst).count "Additional Information"
        = 0 := by
      rw [List.count_eq_zero]
      intro hc
      exact hai (mem_runSections_fst hc)
    by_cases hrem : (m.filter
        (fun p => !(runSections m ⟨[], []⟩).claimed.contains p.1)).isEmpty = true
    · rw [if_pos hrem, hzero]
      exact Nat.zero_le 1
    · rw [if_neg hrem, List.map_append, List.count_append, hzero]
      simp

/-- Witness for `c4_amended` on the one-key dictionary `{"foo": null}`. -/
theorem c4_witness :
    format_formula_for_display (J.obj [("foo", J.null)])
        = FmtResult.categorized (categorize [("foo", J.null)])
    ∧ "Product Name" ∈ (categorize [("foo", J.null)]).map Prod.fst
    ∧ ((categorize [("foo", J.null)]).map Prod.fst).count "Additional Information" ≤ 1 :=
  ⟨(c4_amended [("foo", J.null)] (List.cons_ne_nil _ _)).1,
    (c4_amended [("foo", J.null)] (List.cons_ne_nil _ _)).2.1 "Product Name"
      (by decide),
    (c4_amended [("foo", J.null)] (List.cons_ne_nil _ _)).2.2.2⟩

/-! ### Stripping and searching lemmas (for claim C1) -/

theorem dropWhile_append_of_all {p : Char → Bool} {a : List Char} (r : List Char)
    (ha : ∀ x ∈ a, p x = true) : (a ++ r).dropWhile p = r.dropWhile p := by
  induction a with
  | nil => rfl
  | cons c t ih =>
    have hc : p c = true := ha c (List.mem_cons_self c t)
    simp only [List.cons_append, List.dropWhile_cons, hc, if_true]
    exact ih (fun x hx => ha x (List.mem_cons_of_mem c hx))

theorem dropWhile_of_head_neg {p : Char → Bool} {c : Char} (t : List Char)
    (hc : p c = false) : (c :: t).dropWhile p = c :: t := by
  simp [List.dropWhile_cons, hc]

/-- Stripping whitespace from both ends of `a ++ C ++ b` where `a` and `b`
are whitespace-only and `C` starts and ends with non-whitespace yields
exactly `C` (with `C` given in both head and last normal forms). -/
theorem stripBy_eq {p : Char → Bool} (a b x t : List Char) {c0 cl : Char}
    (hC : c0 :: t = x ++ [cl])
    (ha : ∀ y ∈ a, p y = true) (hb : ∀ y ∈ b, p y = true)
    (h0 : p c0 = false) (hl : p cl = false) :
    stripRightBy p ((a ++ (c0 :: t) ++ b).dropWhile p) = c0 :: t := by
  rw [List.append_assoc, dropWhile_append_of_all _ ha]
  have h1 : ((c0 :: t) ++ b).dropWhile p = (c0 :: t) ++ b := by
    rw [List.cons_append]
    exact dropWhile_of_head_neg _ h0
  rw [h1]
  unfold stripRightBy
  rw [List.reverse_append, dropWhile_append_of_all _ (by
    intro y hy
    exact hb y (List.mem_reverse.mp hy))]
  rw [hC, List.reverse_append]
  simp only [List.reverse_cons, List.reverse_nil, List.nil_append, List.singleton_append]
  rw [dropWhile_of_head_neg _ hl]
  simp

theorem stripBy_core_eq {p : Char → Bool} (x t : List Char) {c0 cl : Char}
    (hC : c0 :: t = x ++ [cl]) (h0 : p c0 = false) (hl : p cl = false) :
    stripRightBy p ((c0 :: t).dropWhile p) = c0 :: t := by
  have := stripBy_eq [] [] x t hC (by intro y hy; cases hy) (by intro y hy; cases hy) h0 hl
  simpa using this

theorem jsonStripL_decomp (l : List Char) :
    ∃ a b, l = a ++ jsonStripL l ++ b
      ∧ (∀ y ∈ a, jws y = true) ∧ (∀ y ∈ b, jws y = true) := by
  refine ⟨l.takeWhile jws, ((l.dropWhile jws).reverse.takeWhile jws).reverse, ?_, ?_, ?_⟩
  · have h1 : jsonStripL l ++ ((l.dropWhile jws).reverse.takeWhile jws).reverse
        = l.dropWhile jws := by
      unfold jsonStripL stripRightBy
      rw [← List.reverse_append, List.takeWhile_append_dropWhile, List.reverse_reverse]
    rw [List.append_assoc, h1, List.takeWhile_append_dropWhile]
  · intro y hy
    exact List.mem_takeWhile_imp hy
  · intro y hy
    exact List.mem_takeWhile_imp (List.mem_reverse.mp hy)

theorem pyFind_head (c : Char) (t : List Char) : pyFind c (c :: t) = 0 := by
  simp [pyFind, List.findIdx?_cons]

theorem pyRFind_concat (c : Char) (x : List Char) : pyRFind c (x ++ [c]) = (x.length : Int) := by
  simp only [pyRFind, List.reverse_append, List.reverse_cons, List.reverse_nil,
    List.nil_append, List.singleton_append, List.findIdx?_cons, beq_self_eq_true, if_true]
  simp only [List.length_append, List.length_cons, List.length_nil]
  push_cast
  ring

theorem pySliceTo_full (l : List Char) (j : Int) (hj : j = (l.length : Int)) :
    pySliceTo l 0 j = l := by
  subst hj
  simp [pySliceTo]

theorem jws_pyWs {c : Char} (h : jws c = true) : pyWs c = true := by
  simp only [jws, Bool.or_eq_true, decide_eq_true_eq] at h
  rcases h with ((h | h) | h) | h <;> simp [pyWs, h]

/-! ### The JSON parser consumes a prefix (for claim C1) -/

theorem pnumInt_suffix {l ip r : List Char} (h : pnumInt l = some (ip, r)) :
    l = ip ++ r := by
  cases l with
  | nil => cases h
  | cons c rest =>
    simp only [pnumInt] at h
    split at h
    · simp only [Option.some.injEq, Prod.mk.injEq] at h
      obtain ⟨h1, h2⟩ := h
      subst h1
      subst h2
      rfl
    · split at h
      · simp only [Option.some.injEq, Prod.mk.injEq] at h
        obtain ⟨h1, h2⟩ := h
        subst h1
        subst h2
        simp [List.takeWhile_append_dropWhile]
      · cases h

theorem pnumFrac_eq (l : List Char) : (pnumFrac l).1 ++ (pnumFrac l).2 = l := by
  unfold pnumFrac
  split
  · dsimp only
    split
    · rfl
    · simp [List.takeWhile_append_dropWhile]
  · rfl

theorem pnumExp_eq (l : List Char) : (pnumExp l).1 ++ (pnumExp l).2 = l := by
  unfold pnumExp
  split
  · rfl
  · rfl
  · split
    · split
      · dsimp only
        split
        · rfl
        · simp [List.takeWhile_append_dropWhile]
      · dsimp only
        split
        · rfl
        · simp [List.takeWhile_append_dropWhile]
    · rfl

theorem pnum_suffix {l lex r : List Char} (h : pnum l = some (lex, r)) :
    l = lex ++ r := by
  unfold pnum at h
  split at h
  · rename_i rest
    cases hi : pnumInt rest with
    | none => rw [hi] at h; cases h
    | some p =>
      obtain ⟨ip, r1⟩ := p
      rw [hi] at h
      simp only [Option.some.injEq, Prod.mk.injEq] at h
      obtain ⟨h1, h2⟩ := h
      subst h1
      subst h2
      have e1 : rest = ip ++ r1 := pnumInt_suffix hi
      have e2 := pnumFrac_eq r1
      have e3 := pnumExp_eq (pnumFrac r1).2
      rw [List.cons_append, List.append_assoc, List.append_assoc, e3, e2, ← e1]
  · rename_i hne
    cases hi : pnumInt l with
    | none => rw [hi] at h; cases h
    | some p =>
      obtain ⟨ip, r1⟩ := p
      rw [hi] at h
      simp only [Option.some.injEq, Prod.mk.injEq] at h
      obtain ⟨h1, h2⟩ := h
      subst h1
      subst h2
      have e1 : l = ip ++ r1 := pnumInt_suffix hi
      have e2 := pnumFrac_eq r1
      have e3 := pnumExp_eq (pnumFrac r1).2
      rw [List.append_assoc, List.append_assoc, e3, e2, ← e1]

theorem sfx_rfl {A : Type} {r : List A} : ∃ x, r = x ++ r := ⟨[], rfl⟩

theorem sfx_cons {A : Type} {r t : List A} (c : A) (h : ∃ x, t = x ++ r) :
    ∃ x, c :: t = x ++ r := by
  obtain ⟨x, hx⟩ := h
  exact ⟨c :: x, by simp [hx]⟩

theorem sfx_trans {A : Type} {l m r : List A} (h1 : ∃ x, l = x ++ m)
    (h2 : ∃ y, m = y ++ r) : ∃ z, l = z ++ r := by
  obtain ⟨x, hx⟩ := h1
  obtain ⟨y, hy⟩ := h2
  exact ⟨x ++ y, by simp [hx, hy]⟩

theorem sfx_dropWhile (p : Char → Bool) (l : List Char) :
    ∃ x, l = x ++ l.dropWhile p :=
  ⟨l.takeWhile p, (List.takeWhile_append_dropWhile p l).symm⟩

theorem sfx_of_eq_cons {A : Type} {l r : List A} {d : A} (h : l = d :: r) :
    ∃ x, l = x ++ r :=
  ⟨[d], by simp [h]⟩

theorem pstr_map_inv {f : Nat} {r2 : List Char} {s r : List Char} {ch : Char}
    (ih : ∀ l s r, pstr f l = some (s, r) → ∃ x, l = x ++ r)
    (h : (pstr f r2).map (fun p => (ch :: p.1, p.2)) = some (s, r)) :
    ∃ x, r2 = x ++ r := by
  cases hp : pstr f r2 with
  | none => rw [hp] at h; cases h
  | some p =>
    obtain ⟨s0, r0⟩ := p
    rw [hp] at h
    simp at h
    obtain ⟨h1, h2⟩ := h
    subst h2
    exact ih _ _ _ hp

theorem puesc_suffix {l r : List Char} {ch : Char} (h : puesc l = some (ch, r)) :
    ∃ x, l = x ++ r := by
  unfold puesc at h
  split at h
  · split at h
    · try dsimp only at h
      split at h
      · split at h
        · split at h
          · split at h
            · try dsimp only at h
              split at h
              · simp at h
                obtain ⟨h1, h2⟩ := h
                subst h2
                exact sfx_cons _ (sfx_cons _ (sfx_cons _ (sfx_cons _ (sfx_cons _
                  (sfx_cons _ (sfx_cons _ (sfx_cons _ (sfx_cons _ (sfx_cons _
                    sfx_rfl)))))))))
              · simp at h
                obtain ⟨h1, h2⟩ := h
                subst h2
                exact sfx_cons _ (sfx_cons _ (sfx_cons _ (sfx_cons _ sfx_rfl)))
            · simp at h
              obtain ⟨h1, h2⟩ := h
              subst h2
              exact sfx_cons _ (sfx_cons _ (sfx_cons _ (sfx_cons _ sfx_rfl)))
          · simp at h
            obtain ⟨h1, h2⟩ := h
            subst h2
            exact sfx_cons _ (sfx_cons _ (sfx_cons _ (sfx_cons _ sfx_rfl)))
        · simp at h
          obtain ⟨h1, h2⟩ := h
          subst h2
          exact sfx_cons _ (sfx_cons _ (sfx_cons _ (sfx_cons _ sfx_rfl)))
      · simp at h
        obtain ⟨h1, h2⟩ := h
        subst h2
        exact sfx_cons _ (sfx_cons _ (sfx_cons _ (sfx_cons _ sfx_rfl)))
    · cases h
  · cases h

/-- Every sub-parser of the `json.loads` model returns a remainder that is
a suffix of its input: the parser only consumes a prefix. -/
theorem parser_suffix (f : Nat) :
    (∀ l s r, pstr f l = some (s, r) → ∃ x, l = x ++ r)
    ∧ (∀ l v r, pvalue f l = some (v, r) → ∃ x, l = x ++ r)
    ∧ (∀ acc l ms r, pmembers f acc l = some (ms, r) → ∃ x, l = x ++ r)
    ∧ (∀ acc l vs r, pelems f acc l = some (vs, r) → ∃ x, l = x ++ r) := by
  induction f with
  | zero =>
    refine ⟨?_, ?_, ?_, ?_⟩
    · intro l s r h; cases h
    · intro l v r h; cases h
    · intro acc l ms r h; cases h
    · intro acc l vs r h; cases h
  | succ f ih =>
    obtain ⟨ihs, ihv, ihm, ihe⟩ := ih
    refine ⟨?_, ?_, ?_, ?_⟩
    · -- pstr
      intro l s r h
      cases l with
      | nil => cases h
      | cons c rest =>
        simp only [pstr] at h
        split at h
        · simp at h
          obtain ⟨h1, h2⟩ := h
          subst h2
          exact sfx_cons c sfx_rfl
        · split at h
          · -- backslash escape
            split at h
            · cases h
            · rename_i e r2
              cases hesc : escChar e with
              | some ch =>
                simp only [hesc] at h
                exact sfx_cons c (sfx_cons e (pstr_map_inv ihs h))
              | none =>
                simp only [hesc] at h
                split at h
                · cases hu : puesc r2 with
                  | none => simp only [hu] at h; cases h
                  | some q =>
                    obtain ⟨ch, r3⟩ := q
                    simp only [hu] at h
                    exact sfx_cons c (sfx_cons e
                      (sfx_trans (puesc_suffix hu) (pstr_map_inv ihs h)))
                · cases h
          · split at h
            · cases h
            · exact sfx_cons c (pstr_map_inv ihs h)
    · -- pvalue
      intro l v r h
      cases l with
      | nil => cases h
      | cons c rest =>
        simp only [pvalue] at h
        split at h
        · -- string
          cases hp : pstr f rest with
          | none => simp only [hp] at h; cases h
          | some q =>
            obtain ⟨s0, r0⟩ := q
            simp only [hp, Option.some.injEq, Prod.mk.injEq] at h
            obtain ⟨h1, h2⟩ := h
            subst h2
            exact sfx_cons c (ihs _ _ _ hp)
        · split at h
          · -- object
            cases hd : rest.dropWhile jws with
            | nil => simp only [hd] at h; cases h
            | cons d t2 =>
              simp only [hd] at h
              have hrest : ∃ x, rest = x ++ (d :: t2) := by
                rw [← hd]
                exact sfx_dropWhile jws rest
              split at h
              · simp only [Option.some.injEq, Prod.mk.injEq] at h
                obtain ⟨h1, h2⟩ := h
                subst h2
                exact sfx_cons c (sfx_trans hrest (sfx_cons d sfx_rfl))
              · cases hm : pmembers f [] (d :: t2) with
                | none => simp only [hm] at h; cases h
                | some q =>
                  obtain ⟨ms0, r0⟩ := q
                  simp only [hm, Option.some.injEq, Prod.mk.injEq] at h
                  obtain ⟨h1, h2⟩ := h
                  subst h2
                  exact sfx_cons c (sfx_trans hrest (ihm _ _ _ _ hm))
          · split at h
            · -- array
              cases hd : rest.dropWhile jws with
              | nil => simp only [hd] at h; cases h
              | cons d t2 =>
                simp only [hd] at h
                have hrest : ∃ x, rest = x ++ (d :: t2) := by
                  rw [← hd]
                  exact sfx_dropWhile jws rest
                split at h
                · simp only [Option.some.injEq, Prod.mk.injEq] at h
                  obtain ⟨h1, h2⟩ := h
                  subst h2
                  exact sfx_cons c (sfx_trans hrest (sfx_cons d sfx_rfl))
                · cases he : pelems f [] (d :: t2) with
                  | none => simp only [he] at h; cases h
                  | some q =>
                    obtain ⟨vs0, r0⟩ := q
                    simp only [he, Option.some.injEq, Prod.mk.injEq] at h
                    obtain ⟨h1, h2⟩ := h
                    subst h2
                    exact sfx_cons c (sfx_trans hrest (ihe _ _ _ _ he))
            · split at h
              · -- true
                split at h
                · simp at h
                  obtain ⟨h1, h2⟩ := h
                  subst h2
                  exact sfx_cons _ (sfx_cons _ (sfx_cons _ (sfx_cons _ sfx_rfl)))
                · cases h
              · split at h
                · -- false
                  split at h
                  · simp at h
                    obtain ⟨h1, h2⟩ := h
                    subst h2
                    exact sfx_cons _ (sfx_cons _ (sfx_cons _ (sfx_cons _
                      (sfx_cons _ sfx_rfl))))
                  · cases h
                · split at h
                  · -- null
                    split at h
                    · simp at h
                      obtain ⟨h1, h2⟩ := h
                      subst h2
                      exact sfx_cons _ (sfx_cons _ (sfx_cons _ (sfx_cons _ sfx_rfl)))
                    · cases h
                  · split at h
                    · -- NaN
                      split at h
                      · simp at h
                        obtain ⟨h1, h2⟩ := h
                        subst h2
                        exact sfx_cons _ (sfx_cons _ (sfx_cons _ sfx_rfl))
                      · cases h
                    · split at h
                      · -- Infinity
                        split at h
                        · simp at h
                          obtain ⟨h1, h2⟩ := h
                          subst h2
                          exact sfx_cons _ (sfx_cons _ (sfx_cons _ (sfx_cons _
                            (sfx_cons _ (sfx_cons _ (sfx_cons _ (sfx_cons _ sfx_rfl)))))))
                        · cases h
                      · -- number or -Infinity
                        cases hn : pnum (c :: rest) with
                        | some q =>
                          obtain ⟨lex, r0⟩ := q
                          simp only [hn, Option.some.injEq, Prod.mk.injEq] at h
                          obtain ⟨h1, h2⟩ := h
                          subst h2
                          exact ⟨lex, pnum_suffix hn⟩
                        | none =>
                          simp only [hn] at h
                          split at h
                          · split at h
                            · simp at h
                              obtain ⟨h1, h2⟩ := h
                              subst h2
                              exact sfx_cons _ (sfx_cons _ (sfx_cons _ (sfx_cons _
                                (sfx_cons _ (sfx_cons _ (sfx_cons _ (sfx_cons _
                                  (sfx_cons _ sfx_rfl))))))))
                            · cases h
                          · cases h
    · -- pmembers
      intro acc l ms r h
      cases l with
      | nil => cases h
      | cons c rest =>
        simp only [pmembers] at h
        split at h
        · cases hp : pstr f rest with
          | none => simp only [hp] at h; cases h
          | some q =>
            obtain ⟨k, r1⟩ := q
            simp only [hp] at h
            split at h
            · rename_i r3 heq3
              cases hv : pvalue f (r3.dropWhile jws) with
              | none => simp only [hv] at h; cases h
              | some q2 =>
                obtain ⟨v0, r4⟩ := q2
                simp only [hv] at h
                split at h
                · rename_i r6 heq6
                  have tail : ∃ x, rest = x ++ r6.dropWhile jws :=
                    sfx_trans (ihs _ _ _ hp)
                      (sfx_trans (sfx_dropWhile jws r1)
                        (sfx_trans (sfx_of_eq_cons heq3)
                          (sfx_trans (sfx_dropWhile jws r3)
                            (sfx_trans (ihv _ _ _ hv)
                              (sfx_trans (sfx_dropWhile jws r4)
                                (sfx_trans (sfx_of_eq_cons heq6)
                                  (sfx_dropWhile jws r6)))))))
                  exact sfx_cons c (sfx_trans tail (ihm _ _ _ _ h))
                · split at h
                  · simp only [Option.some.injEq, Prod.mk.injEq] at h
                    obtain ⟨h1, h2⟩ := h
                    subst h2
                    rename_i heq6 hbr
                    exact sfx_cons c (sfx_trans (ihs _ _ _ hp)
                      (sfx_trans (sfx_dropWhile jws r1)
                        (sfx_trans (sfx_of_eq_cons heq3)
                          (sfx_trans (sfx_dropWhile jws r3)
                            (sfx_trans (ihv _ _ _ hv)
                              (sfx_trans (sfx_dropWhile jws r4)
                                (sfx_of_eq_cons heq6)))))))
                  · cases h
                · cases h
            · cases h
        · cases h
    · -- pelems
      intro acc l vs r h
      simp only [pelems] at h
      cases hv : pvalue f l with
      | none => simp only [hv] at h; cases h
      | some q =>
        obtain ⟨v0, r0⟩ := q
        simp only [hv] at h
        split at h
        · rename_i r3 heq3
          have tail : ∃ x, l = x ++ r3.dropWhile jws :=
            sfx_trans (ihv _ _ _ hv)
              (sfx_trans (sfx_dropWhile jws r0)
                (sfx_trans (sfx_of_eq_cons heq3) (sfx_dropWhile jws r3)))
          exact sfx_trans tail (ihe _ _ _ _ h)
        · split at h
          · simp only [Option.some.injEq, Prod.mk.injEq] at h
            obtain ⟨h1, h2⟩ := h
            subst h2
            rename_i heq3 hbr
            exact sfx_trans (ihv _ _ _ hv)
              (sfx_trans (sfx_dropWhile jws r0) (sfx_of_eq_cons heq3))
          · cases h
        · cases h

/-- The object-members parser consumes through a closing brace: its
remainder is preceded in the input by `}`. -/
theorem pmembers_close (f : Nat) :
    ∀ acc l ms r, pmembers f acc l = some (ms, r) → ∃ x, l = x ++ rbrace :: r := by
  induction f with
  | zero => intro acc l ms r h; cases h
  | succ f ih =>
    obtain ⟨ihs, ihv, _, _⟩ := parser_suffix f
    intro acc l ms r h
    cases l with
    | nil => cases h
    | cons c rest =>
      simp only [pmembers] at h
      split at h
      · cases hp : pstr f rest with
        | none => simp only [hp] at h; cases h
        | some q =>
          obtain ⟨k, r1⟩ := q
          simp only [hp] at h
          split at h
          · rename_i r3 heq3
            cases hv : pvalue f (r3.dropWhile jws) with
            | none => simp only [hv] at h; cases h
            | some q2 =>
              obtain ⟨v0, r4⟩ := q2
              simp only [hv] at h
              split at h
              · rename_i r6 heq6
                have tail : ∃ x, rest = x ++ r6.dropWhile jws :=
                  sfx_trans (ihs _ _ _ hp)
                    (sfx_trans (sfx_dropWhile jws r1)
                      (sfx_trans (sfx_of_eq_cons heq3)
                        (sfx_trans (sfx_dropWhile jws r3)
                          (sfx_trans (ihv _ _ _ hv)
                            (sfx_trans (sfx_dropWhile jws r4)
                              (sfx_trans (sfx_of_eq_cons heq6)
                                (sfx_dropWhile jws r6)))))))
                exact sfx_cons c (sfx_trans tail (ih _ _ _ _ h))
              · split at h
                · simp only [Option.some.injEq, Prod.mk.injEq] at h
                  obtain ⟨h1, h2⟩ := h
                  subst h2
                  rename_i heq6 hbr
                  rw [hbr] at heq6
                  have tail : ∃ x, rest = x ++ r4.dropWhile jws :=
                    sfx_trans (ihs _ _ _ hp)
                      (sfx_trans (sfx_dropWhile jws r1)
                        (sfx_trans (sfx_of_eq_cons heq3)
                          (sfx_trans (sfx_dropWhile jws r3)
                            (sfx_trans (ihv _ _ _ hv) (sfx_dropWhile jws r4)))))
                  rw [heq6] at tail
                  exact sfx_cons c tail
                · cases h
              · cases h
          · cases h
      · cases h

/-- The array-elements parser consumes through a closing bracket: its
remainder is preceded in the input by `]`. -/
theorem pelems_close (f : Nat) :
    ∀ acc l vs r, pelems f acc l = some (vs, r) → ∃ x, l = x ++ ']' :: r := by
  induction f with
  | zero => intro acc l vs r h; cases h
  | succ f ih =>
    obtain ⟨_, ihv, _, _⟩ := parser_suffix f
    intro acc l vs r h
    simp only [pelems] at h
    cases hv : pvalue f l with
    | none => simp only [hv] at h; cases h
    | some q =>
      obtain ⟨v0, r0⟩ := q
      simp only [hv] at h
      split at h
      · rename_i r3 heq3
        have tail : ∃ x, l = x ++ r3.dropWhile jws :=
          sfx_trans (ihv _ _ _ hv)
            (sfx_trans (sfx_dropWhile jws r0)
              (sfx_trans (sfx_of_eq_cons heq3) (sfx_dropWhile jws r3)))
        exact sfx_trans tail (ih _ _ _ _ h)
      · split at h
        · simp only [Option.some.injEq, Prod.mk.injEq] at h
          obtain ⟨h1, h2⟩ := h
          subst h2
          rename_i heq3 hbr
          rw [hbr] at heq3
          have tail : ∃ x, l = x ++ r0.dropWhile jws :=
            sfx_trans (ihv _ _ _ hv) (sfx_dropWhile jws r0)
          rw [heq3] at tail
          exact tail
        · cases h
      · cases h

/-- Parsing a JSON object value: the input starts with `{` and the
remainder is preceded by `}`. -/
theorem pvalue_obj_bounds (f : Nat) (l : List Char) (mm : List (String × J))
    (r : List Char) (h : pvalue f l = some (J.obj mm, r)) :
    (∃ t, l = lbrace :: t) ∧ (∃ x, l = x ++ rbrace :: r) := by
  cases f with
  | zero => cases h
  | succ f =>
    cases l with
    | nil => cases h
    | cons c rest =>
      simp only [pvalue] at h
      split at h
      · -- string: value mismatch
        cases hp : pstr f rest with
        | none => simp only [hp] at h; cases h
        | some q =>
          obtain ⟨s0, r0⟩ := q
          simp only [hp] at h
          simp at h
      · split at h
        · -- object branch
          rename_i hq hlb
          refine ⟨⟨rest, by rw [hlb]⟩, ?_⟩
          cases hd : rest.dropWhile jws with
          | nil => simp only [hd] at h; cases h
          | cons d t2 =>
            simp only [hd] at h
            have hrest : ∃ x, rest = x ++ (d :: t2) := by
              rw [← hd]
              exact sfx_dropWhile jws rest
            split at h
            · rename_i hbr
              simp only [Option.some.injEq, Prod.mk.injEq] at h
              obtain ⟨h1, h2⟩ := h
              subst h2
              rw [hbr] at hd
              have tail : ∃ x, rest = x ++ rest.dropWhile jws := sfx_dropWhile jws rest
              rw [hd] at tail
              exact sfx_cons c tail
            · cases hm : pmembers f [] (d :: t2) with
              | none => simp only [hm] at h; cases h
              | some q =>
                obtain ⟨ms0, r0⟩ := q
                simp only [hm, Option.some.injEq, Prod.mk.injEq] at h
                obtain ⟨h1, h2⟩ := h
                subst h2
                exact sfx_cons c (sfx_trans hrest (pmembers_close f _ _ _ _ hm))
        · split at h
          · -- array branch: value mismatch
            cases hd : rest.dropWhile jws with
            | nil => simp only [hd] at h; cases h
            | cons d t2 =>
              simp only [hd] at h
              split at h
              · simp at h
              · cases he : pelems f [] (d :: t2) with
                | none => simp only [he] at h; cases h
                | some q =>
                  obtain ⟨vs0, r0⟩ := q
                  simp only [he] at h
                  simp at h
          · split at h
            · split at h
              · simp at h
              · cases h
            · split at h
              · split at h
                · simp at h
                · cases h
              · split at h
                · split at h
                  · simp at h
                  · cases h
                · split at h
                  · split at h
                    · simp at h
                    · cases h
                  · split at h
                    · split at h
                      · simp at h
                      · cases h
                    · cases hn : pnum (c :: rest) with
                      | some q =>
                        obtain ⟨lex, r0⟩ := q
                        simp only [hn] at h
                        simp at h
                      | none =>
                        simp only [hn] at h
                        split at h
                        · split at h
                          · simp at h
                          · cases h
                        · cases h

/-- Parsing a JSON array value: the input starts with `[` and the
remainder is preceded by `]`. -/
theorem pvalue_arr_bounds (f : Nat) (l : List Char) (vv : List J)
    (r : List Char) (h : pvalue f l = some (J.arr vv, r)) :
    (∃ t, l = '[' :: t) ∧ (∃ x, l = x ++ ']' :: r) := by
  cases f with
  | zero => cases h
  | succ f =>
    cases l with
    | nil => cases h
    | cons c rest =>
      simp only [pvalue] at h
      split at h
      · cases hp : pstr f rest with
        | none => simp only [hp] at h; cases h
        | some q =>
          obtain ⟨s0, r0⟩ := q
          simp only [hp] at h
          simp at h
      · split at h
        · -- object branch: value mismatch
          cases hd : rest.dropWhile jws with
          | nil => simp only [hd] at h; cases h
          | cons d t2 =>
            simp only [hd] at h
            split at h
            · simp at h
            · cases hm : pmembers f [] (d :: t2) with
              | none => simp only [hm] at h; cases h
              | some q =>
                obtain ⟨ms0, r0⟩ := q
                simp only [hm] at h
                simp at h
        · split at h
          · -- array branch
            rename_i hq1 hq2 hlb
            refine ⟨⟨rest, by rw [hlb]⟩, ?_⟩
            cases hd : rest.dropWhile jws with
            | nil => simp only [hd] at h; cases h
            | cons d t2 =>
              simp only [hd] at h
              have hrest : ∃ x, rest = x ++ (d :: t2) := by
                rw [← hd]
                exact sfx_dropWhile jws rest
              split at h
              · rename_i hbr
                simp only [Option.some.injEq, Prod.mk.injEq] at h
                obtain ⟨h1, h2⟩ := h
                subst h2
                rw [hbr] at hd
                have tail : ∃ x, rest = x ++ rest.dropWhile jws := sfx_dropWhile jws rest
                rw [hd] at tail
                exact sfx_cons c tail
              · cases he : pelems f [] (d :: t2) with
                | none => simp only [he] at h; cases h
                | some q =>
                  obtain ⟨vs0, r0⟩ := q
                  simp only [he, Option.some.injEq, Prod.mk.injEq] at h
                  obtain ⟨h1, h2⟩ := h
                  subst h2
                  exact sfx_cons c (sfx_trans hrest (pelems_close f _ _ _ _ he))
          · split at h
            · split at h
              · simp at h
              · cases h
            · split at h
              · split at h
                · simp at h
                · cases h
              · split at h
                · split at h
                  · simp at h
                  · cases h
                · split at h
                  · split at h
                    · simp at h
                    · cases h
                  · split at h
                    · split at h
                      · simp at h
                      · cases h
                    · cases hn : pnum (c :: rest) with
                      | some q =>
                        obtain ⟨lex, r0⟩ := q
                        simp only [hn] at h
                        simp at h
                      | none =>
                        simp only [hn] at h
                        split at h
                        · split at h
                          · simp at h
                          · cases h
                        · cases h

theorem json_loads_inv {s : String} {v : J} (h : json_loads s = some v) :
    pvalue (2 * (jsonStripL s.data).length + 2) (jsonStripL s.data) = some (v, []) := by
  simp only [json_loads] at h
  split at h
  · rename_i v2 heq
    simp only [Option.some.injEq] at h
    subst h
    exact heq
  · cases h

/-- The recovery chain on a scrub-free valid JSON object text: the
extraction returns exactly the whitespace-stripped text and the parse
succeeds with the directly-parsed value. -/
theorem recover_obj_exact (s : String) (mm : List (String × J))
    (hscrub : scrub s.data = s.data)
    (hjson : json_loads s = some (J.obj mm)) :
    _parse_json_string (_extract_json_like_str s) = Except.ok (J.obj mm) := by
  have hpv := json_loads_inv hjson
  obtain ⟨hhead, hlast⟩ := pvalue_obj_bounds _ _ _ _ hpv
  obtain ⟨t, ht⟩ := hhead
  obtain ⟨x, hx⟩ := hlast
  have hform : lbrace :: t = x ++ [rbrace] := by rw [← ht, hx]
  obtain ⟨a, b, hdecomp, ha, hb⟩ := jsonStripL_decomp s.data
  rw [ht] at hdecomp
  rw [ht] at hpv
  have hstrip : pyStrip s.data = lbrace :: t := by
    unfold pyStrip
    rw [hdecomp]
    exact stripBy_eq a b x t hform (fun y hy => jws_pyWs (ha y hy))
      (fun y hy => jws_pyWs (hb y hy)) (by decide) (by decide)
  have hxpos : 0 < x.length := by
    cases x with
    | nil =>
      simp only [List.nil_append, List.cons.injEq] at hform
      exact absurd hform.1 (by decide)
    | cons y ys => simp
  have hrfind : pyRFind rbrace (lbrace :: t) = (x.length : Int) := by
    rw [hform]
    exact pyRFind_concat rbrace x
  have hlen : (lbrace :: t).length = x.length + 1 := by
    rw [hform]
    simp
  have hext : _extract_json_like_str s = String.mk (lbrace :: t) := by
    simp only [_extract_json_like_str, hscrub, hstrip]
    rw [pyFind_head, hrfind]
    rw [if_pos ⟨by decide, by omega, by exact_mod_cast hxpos⟩]
    rw [pySliceTo_full _ _ (by rw [hlen]; push_cast; ring)]
  have hstripC : pyStrip (lbrace :: t) = lbrace :: t := by
    unfold pyStrip
    have := stripBy_eq (p := pyWs) [] [] x t hform
      (by intro y hy; cases hy) (by intro y hy; cases hy) (by decide) (by decide)
    simpa using this
  have hjsC : jsonStripL (lbrace :: t) = lbrace :: t := by
    unfold jsonStripL
    have := stripBy_eq (p := jws) [] [] x t hform
      (by intro y hy; cases hy) (by intro y hy; cases hy) (by decide) (by decide)
    simpa using this
  have hloads : json_loads (String.mk (lbrace :: t)) = some (J.obj mm) := by
    simp only [json_loads]
    rw [hjsC, hpv]
  rw [hext]
  simp only [_parse_json_string]
  rw [hstripC, hloads]

/-- The recovery chain on a scrub-free valid JSON array text containing no
object span: the extraction returns exactly the whitespace-stripped text
and the parse succeeds with the directly-parsed value. -/
theorem recover_arr_exact (s : String) (vv : List J)
    (hscrub : scrub s.data = s.data)
    (hjson : json_loads s = some (J.arr vv))
    (hno : ¬(pyFind lbrace (pyStrip (scrub s.data)) ≠ -1
      ∧ pyRFind rbrace (pyStrip (scrub s.data)) ≠ -1
      ∧ pyFind lbrace (pyStrip (scrub s.data)) < pyRFind rbrace (pyStrip (scrub s.data)))) :
    _parse_json_string (_extract_json_like_str s) = Except.ok (J.arr vv) := by
  have hpv := json_loads_inv hjson
  obtain ⟨hhead, hlast⟩ := pvalue_arr_bounds _ _ _ _ hpv
  obtain ⟨t, ht⟩ := hhead
  obtain ⟨x, hx⟩ := hlast
  have hform : '[' :: t = x ++ [']'] := by rw [← ht, hx]
  obtain ⟨a, b, hdecomp, ha, hb⟩ := jsonStripL_decomp s.data
  rw [ht] at hdecomp
  rw [ht] at hpv
  have hstrip : pyStrip s.data = '[' :: t := by
    unfold pyStrip
    rw [hdecomp]
    exact stripBy_eq a b x t hform (fun y hy => jws_pyWs (ha y hy))
      (fun y hy => jws_pyWs (hb y hy)) (by decide) (by decide)
  have hxpos : 0 < x.length := by
    cases x with
    | nil =>
      simp only [List.nil_append, List.cons.injEq] at hform
      exact absurd hform.1 (by decide)
    | cons y ys => simp
  have hrfind : pyRFind ']' ('[' :: t) = (x.length : Int) := by
    rw [hform]
    exact pyRFind_concat ']' x
  have hlen : ('[' :: t).length = x.length + 1 := by
    rw [hform]
    simp
  have hno2 : ¬(pyFind lbrace ('[' :: t) ≠ -1 ∧ pyRFind rbrace ('[' :: t) ≠ -1
      ∧ pyFind lbrace ('[' :: t) < pyRFind rbrace ('[' :: t)) := by
    rw [hscrub, hstrip] at hno
    exact hno
  have hext : _extract_json_like_str s = String.mk ('[' :: t) := by
    simp only [_extract_json_like_str, hscrub, hstrip]
    rw [if_neg hno2]
    rw [pyFind_head, hrfind]
    rw [if_pos ⟨by decide, by omega, by exact_mod_cast hxpos⟩]
    rw [pySliceTo_full _ _ (by rw [hlen]; push_cast; ring)]
  have hstripC : pyStrip ('[' :: t) = '[' :: t := by
    unfold pyStrip
    have := stripBy_eq (p := pyWs) [] [] x t hform
      (by intro y hy; cases hy) (by intro y hy; cases hy) (by decide) (by decide)
    simpa using this
  have hjsC : jsonStripL ('[' :: t) = '[' :: t := by
    unfold jsonStripL
    have := stripBy_eq (p := jws) [] [] x t hform
      (by intro y hy; cases hy) (by intro y hy; cases hy) (by decide) (by decide)
    simpa using this
  have hloads : json_loads (String.mk ('[' :: t)) = some (J.arr vv) := by
    simp only [json_loads]
    rw [hjsC, hpv]
  rw [hext]
  simp only [_parse_json_string]
  rw [hstripC, hloads]

/-! ### Claim C1: recovery on already-valid JSON -/

/-- Claim C1, counterexample: `"[{\"a\": 1}]"` is valid JSON text denoting
an array, but the recovery path slices from the first `{` to the last `}`
and returns success with the inner object — not a value deep-equal to the
direct parse of the text. -/
theorem c1_counterexample :
    json_loads "[\x7b\"a\": 1\x7d]" = some (J.arr [J.obj [("a", J.num "1")]])
    ∧ _parse_json_string (_extract_json_like_str "[\x7b\"a\": 1\x7d]")
        = Except.ok (J.obj [("a", J.num "1")])
    ∧ J.obj [("a", J.num "1")] ≠ J.arr [J.obj [("a", J.num "1")]] :=
  ⟨rfl, rfl, by intro hc; cases hc⟩

/-- Claim C1, amended: for input text containing no standalone
case-insensitive `TERMINATE` token, the recovery path of
`generate_formula` (`_extract_json_like` followed by
`_parse_json_string`) returns success with a value deep-equal to the
direct `json.loads` parse whenever (a) the text is valid JSON denoting an
object, or (b) the text is valid JSON denoting an array and contains no
`{` that precedes a `}`; and a successful parse makes `generate_formula`
return `parsed=true` with that value and the raw text.  (Arrays whose
text contains an object span, and texts containing the sentinel, are
excluded — see the counterexample.) -/
theorem c1_amended :
    (∀ (s : String) (mm : List (String × J)),
      scrub s.data = s.data →
      json_loads s = some (J.obj mm) →
      _parse_json_string (_extract_json_like_str s) = Except.ok (J.obj mm))
    ∧ (∀ (s : String) (vv : List J),
      scrub s.data = s.data →
      json_loads s = some (J.arr vv) →
      ¬(pyFind lbrace (pyStrip (scrub s.data)) ≠ -1
        ∧ pyRFind rbrace (pyStrip (scrub s.data)) ≠ -1
        ∧ pyFind lbrace (pyStrip (scrub s.data)) < pyRFind rbrace (pyStrip (scrub s.data))) →
      _parse_json_string (_extract_json_like_str s) = Except.ok (J.arr vv))
    ∧ (∀ (m s2 : String) (sf : Bool) (v : J),
      (pyStrip m.data).isEmpty = false →
      _parse_json_string (_extract_json_like_str s2) = Except.ok v →
      generate_formula (PyMsg.str m) sf (Except.ok s2)
        = (Except.ok ⟨true, some v, s2, none⟩, ⟨true, true, sf⟩)) := by
  refine ⟨?_, ?_, ?_⟩
  · intro s mm hscrub hjson
    exact recover_obj_exact s mm hscrub hjson
  · intro s vv hscrub hjson hno
    exact recover_arr_exact s vv hscrub hjson hno
  · intro m s2 sf v hm hp
    unfold generate_formula
    simp [hm, hp]

/-- Witness for `c1_amended`: a concrete object text, a concrete array
text, and the full `generate_formula` result on the object text. -/
theorem c1_witness :
    _parse_json_string (_extract_json_like_str "\x7b\"a\": 1\x7d")
        = Except.ok (J.obj [("a", J.num "1")])
    ∧ _parse_json_string (_extract_json_like_str " [1, 2] ")
        = Except.ok (J.arr [J.num "1", J.num "2"])
    ∧ generate_formula (PyMsg.str "face oil") false (Except.ok "\x7b\"a\": 1\x7d")
        = (Except.ok ⟨true, some (J.obj [("a", J.num "1")]), "\x7b\"a\": 1\x7d", none⟩,
            ⟨true, true, false⟩) :=
  ⟨c1_amended.1 "\x7b\"a\": 1\x7d" [("a", J.num "1")] rfl rfl,
    c1_amended.2.1 " [1, 2] " [J.num "1", J.num "2"] rfl rfl (by decide),
    c1_amended.2.2 "face oil" "\x7b\"a\": 1\x7d" false (J.obj [("a", J.num "1")]) rfl
      (c1_amended.1 "\x7b\"a\": 1\x7d" [("a", J.num "1")] rfl rfl)⟩

end Cosmetics
